import Mathlib

/-!
# Verification of the fill-in-the-blank exercise generator and grader

A shallow embedding of the core algorithms of the `english_tests` repository
(`core.py`: word classification, blank-count policy, blank selection, display
assembly, exercise generation; `network.py`: answer grading), together with
theorems about the properties the design documentation states.

Modelling conventions:
* Python strings are Lean `String`s; all scanning functions are written as
  structural recursions over `String.data` so that every definition evaluates
  by kernel reduction.
* Python `dict[int, str]` is an association list whose keys are unique;
  `dictInsert` mirrors `d[k] = v` (in-place update of an existing key,
  append of a fresh key, matching Python's insertion-order semantics),
  `dictGet` mirrors `d.get(k)`, `dictHasKey` mirrors `k in d`.
* Calls into the `random` module are derandomised by an explicit tape of
  naturals: `random.randint(a, b)` becomes `a + draw % (b - a + 1)`,
  `random.choice(pool)` picks index `t % len(pool)`, `random.sample` /
  `random.shuffle` repeatedly extract a tape-chosen element.  Every tape
  yields an execution the Python code can take, and every reachable outcome
  corresponds to some tape, so universally quantifying over tapes captures
  "for every randomly generated result".
* Word positions produced by `enumerate` are naturals.  Grading, which parses
  positions back out of `BLANK_<integer>` markers with Python `int()`, uses
  `Int` keys, since `int()` accepts signed numerals.
-/

namespace EnglishTests

/-! ## Python string primitives -/

/-- ASCII whitespace as recognised by Python's `str.strip()` / `str.split()`:
space, tab, newline, carriage return, vertical tab, form feed. -/
def pyIsSpace (c : Char) : Bool :=
  c == ' ' || c == '\t' || c == '\n' || c == '\r' || c == '\x0b' || c == '\x0c'

/-- The apostrophe character (U+0027). -/
def apostropheChar : Char := Char.ofNat 39

/-- `PUNCTUATION = ".!,?;:'\"()[]{}<>"` from `core.py`
(the curly braces are written as hex escapes). -/
def PUNCTUATION : List Char := ".!,?;:'\"()[]\x7b\x7d<>".data

/-- Strip characters satisfying `p` from both ends of a character list
(the semantics of Python `str.strip(chars)`). -/
def stripP (p : Char → Bool) (l : List Char) : List Char :=
  ((l.dropWhile p).reverse.dropWhile p).reverse

/-- Python `s.strip(chars)`. -/
def pyStripChars (chars : List Char) (s : String) : String :=
  String.mk (stripP (fun c => chars.contains c) s.data)

/-- Python `s.strip()` (no argument: strip whitespace). -/
def pyStripWs (s : String) : String :=
  String.mk (stripP pyIsSpace s.data)

/-- Lower-case an ASCII letter, as Python `str.lower()` does on ASCII text. -/
def pyToLower (c : Char) : Char :=
  if 65 ≤ c.toNat && c.toNat ≤ 90 then Char.ofNat (c.toNat + 32) else c

/-- Python `s.lower()`. -/
def pyLower (s : String) : String := String.mk (s.data.map pyToLower)

/-- The grader's normalisation of an answer: `str(x).lower().strip()`. -/
def normalizeAnswer (s : String) : String := pyStripWs (pyLower s)

/-- ASCII decimal digit test. -/
def isDigitChar (c : Char) : Bool := 48 ≤ c.toNat && c.toNat ≤ 57

/-- ASCII letter test (Python `str.isalpha()` restricted to ASCII text). -/
def pyIsAlphaChar (c : Char) : Bool :=
  (65 ≤ c.toNat && c.toNat ≤ 90) || (97 ≤ c.toNat && c.toNat ≤ 122)

/-- Numeric value of a digit string (most significant digit first). -/
def digitsVal (l : List Char) : Nat :=
  l.foldl (fun acc c => acc * 10 + (c.toNat - 48)) 0

/-- Parse a non-empty all-digit character list as a natural number. -/
def natDigits? (l : List Char) : Option Nat :=
  if !l.isEmpty && l.all isDigitChar then some (digitsVal l) else none

/-- Python `int(s)` on a string containing no underscore: optional surrounding
whitespace, an optional sign, then one or more ASCII digits. -/
def pyIntChars? (l : List Char) : Option Int :=
  match stripP pyIsSpace l with
  | [] => none
  | c :: rest =>
      if c = '+' then (natDigits? rest).map (fun n => (n : Int))
      else if c = '-' then (natDigits? rest).map (fun n => -(n : Int))
      else (natDigits? (c :: rest)).map (fun n => (n : Int))

/-- Python `s.split(sep)` for a one-character separator, accumulator form. -/
def splitOnCharAux (sep : Char) : List Char → List Char → List (List Char)
  | [], acc => [acc.reverse]
  | c :: rest, acc =>
      if c == sep then acc.reverse :: splitOnCharAux sep rest []
      else splitOnCharAux sep rest (c :: acc)

/-- Python `text.split()` (split on whitespace runs, discarding empties),
accumulator form. -/
def splitWsAux : List Char → List Char → List String
  | [], acc => if acc.isEmpty then [] else [String.mk acc.reverse]
  | c :: rest, acc =>
      if pyIsSpace c then
        if acc.isEmpty then splitWsAux rest []
        else String.mk acc.reverse :: splitWsAux rest []
      else splitWsAux rest (c :: acc)

/-- Python `text.split()`. -/
def pySplitWs (s : String) : List String := splitWsAux s.data []

/-! ## Python dictionaries as association lists -/

/-- `d[k] = v`: update an existing key in place, append a fresh key
(Python dicts preserve insertion order). -/
def dictInsert {κ β : Type} [DecidableEq κ] : List (κ × β) → κ → β → List (κ × β)
  | [], k, v => [(k, v)]
  | (k', v') :: rest, k, v =>
      if k' = k then (k, v) :: rest else (k', v') :: dictInsert rest k v

/-- `d.get(k)`. -/
def dictGet {κ β : Type} [DecidableEq κ] : List (κ × β) → κ → Option β
  | [], _ => none
  | (k', v') :: rest, k => if k' = k then some v' else dictGet rest k

/-- `d.keys()`. -/
def dictKeys {κ β : Type} (d : List (κ × β)) : List κ := d.map Prod.fst

/-- `k in d`. -/
def dictHasKey {κ β : Type} [DecidableEq κ] (d : List (κ × β)) (k : κ) : Bool :=
  (dictGet d k).isSome

/-- Rebuild a dict from a pair list by repeated insertion, as the grader's
`correct_answers` loop does (later bindings win, first-insertion order kept). -/
def toDict {κ β : Type} [DecidableEq κ] (l : List (κ × β)) : List (κ × β) :=
  l.foldl (fun d kv => dictInsert d kv.1 kv.2) []

/-! ## Placeholder decoding (`network.py`) -/

/-- The marker prefix used by `_create_display_parts` and tested by the grader. -/
def blankPrefix : List Char := "BLANK_".data

/-- Decode a display entry exactly as `_evaluate_answers` does:
`part.startswith("BLANK_")` followed by `int(part.split("_")[1])`
(a parse failure is skipped via the surrounding `try`/`continue`). -/
def decodeBlank (part : String) : Option Int :=
  if blankPrefix.isPrefixOf part.data then
    match (splitOnCharAux '_' part.data []).get? 1 with
    | some piece => pyIntChars? piece
    | none => none
  else none

/-! ## The grader (`_evaluate_answers`, `network.py`) -/

/-- One entry of the grader's `results` dict. -/
structure GradeEntry where
  user : String
  correct : String
  is_correct : Bool
  deriving DecidableEq, Repr

/-- Grader state: `(results, score, total_blanks)`. -/
abbrev GradeState := List (Int × GradeEntry) × Nat × Nat

/-- The body of the grader's `for part in display_parts` loop. -/
def gradeStep (correctAnswers userAnswers : List (Int × String))
    (acc : GradeState) (part : String) : GradeState :=
  match decodeBlank part with
  | none => acc
  | some p =>
    let total := acc.2.2 + 1
    match dictGet correctAnswers p with
    | none => (acc.1, acc.2.1, total)
    | some correctWord =>
      let userWord := (dictGet userAnswers p).getD ""
      let isCorr := normalizeAnswer userWord == normalizeAnswer correctWord
      (dictInsert acc.1 p ⟨userWord, correctWord, isCorr⟩,
       if isCorr then acc.2.1 + 1 else acc.2.1,
       total)

/-- `_evaluate_answers(user_answers, blanks_data, display_parts)` from
`network.py`: normalise `blanks_data` into `correct_answers`, then scan
`display_parts`, counting decodable `BLANK_<int>` markers into `total`,
skipping positions absent from `correct_answers`, and otherwise comparing
the normalised user answer with the normalised correct answer. -/
def evaluateAnswers (userAnswers blanksData : List (Int × String))
    (displayParts : List String) : GradeState :=
  displayParts.foldl (gradeStep (toDict blanksData) userAnswers) ([], 0, 0)

/-! ## Word classification (`_get_blank_selection_population`, `core.py`) -/

/-- Remove every occurrence of the given characters
(Python `s.replace(c, "")` chained). -/
def removeChars (l : List Char) (toRemove : List Char) : List Char :=
  l.filter (fun c => !(toRemove.contains c))

/-- The eligibility test of `_get_blank_selection_population`:
`word.strip(PUNCTUATION).replace("-", "").replace("'", "").isalpha()`. -/
def isEligibleToken (w : String) : Bool :=
  let cleaned := stripP (fun c => PUNCTUATION.contains c) w.data
  let inner := removeChars cleaned ['-', apostropheChar]
  !inner.isEmpty && inner.all pyIsAlphaChar

/-- `_get_blank_selection_population(words)`: enumerate the tokens, skip
empty/whitespace-only ones (`if not word.strip(): continue`), keep the
pairs whose token passes the eligibility test.  The Python loop appends
the surviving pairs in order, i.e. it is a filter of `enumerate(words)`. -/
def getBlankSelectionPopulation (words : List String) : List (Nat × String) :=
  words.enum.filter
    (fun iw => !(stripP pyIsSpace iw.2.data).isEmpty && isEligibleToken iw.2)

/-- The eligibility rule as the design document words it (§4.1): strip the
fixed punctuation set from both ends, then remove internal `-` and `'`, then
require the remainder to be non-empty and entirely alphabetic. -/
def specEligible (w : String) : Bool :=
  let stripped := stripP (fun c => PUNCTUATION.contains c) w.data
  let remainder := removeChars stripped ['-', apostropheChar]
  !remainder.isEmpty && remainder.all pyIsAlphaChar

/-! ## Blank count policy (`_determine_num_blanks`, `core.py`) -/

/-- `random.randint(a, b)` derandomised: for `a ≤ b` the result is
`a + draw % (b - a + 1)`, which ranges over exactly `[a, b]` as `draw` does
over the naturals. -/
def randintT (a b draw : Nat) : Nat := a + draw % (b - a + 1)

/-- `_determine_num_blanks(population_size, min_blanks, max_blanks)`.
The Python type/negativity guards are vacuous on naturals. -/
def determineNumBlanks (populationSize minBlanks maxBlanks draw : Nat) : Nat :=
  if populationSize = 0 then 0
  else
    let maxPossible := max 1 (populationSize / 2)
    let effMin := min minBlanks maxPossible
    let effMax := min maxBlanks maxPossible
    if effMax < effMin then effMin
    else
      let n := randintT effMin effMax draw
      if n = 0 ∧ 0 < maxPossible then 1 else n

/-! ## Blank selection (`core.py`) -/

/-- The loop of `_select_non_adjacent_blanks`: pick a tape-chosen element of
the available pool, record `(index, word.strip(PUNCTUATION))`, and drop the
chosen index and its numeric neighbours from the pool.  Over naturals the
Python condition `idx != original_idx - 1` is `idx + 1 ≠ original_idx`
(for `original_idx = 0` Python compares against `-1`, which never holds,
and so does `idx + 1 = 0`). -/
def selectNonAdjacentGo :
    Nat → List (Nat × String) → List (Nat × String) → List Nat → List (Nat × String)
  | 0, _, acc, _ => acc
  | _ + 1, [], acc, _ => acc
  | fuel + 1, a :: rest, acc, tape =>
      let avail := a :: rest
      let i := tape.headD 0 % avail.length
      let kv := avail.getD i (0, "")
      let acc' := dictInsert acc kv.1 (pyStripChars PUNCTUATION kv.2)
      let avail' := avail.filter
        (fun p => p.1 != kv.1 && p.1 + 1 != kv.1 && p.1 != kv.1 + 1)
      selectNonAdjacentGo fuel avail' acc' tape.tail

/-- `_select_non_adjacent_blanks(population, num_blanks)`. -/
def selectNonAdjacentBlanks (population : List (Nat × String)) (numBlanks : Nat)
    (tape : List Nat) : List (Nat × String) :=
  if population.isEmpty then []
  else if numBlanks = 0 then []
  else selectNonAdjacentGo numBlanks population [] tape

/-- `random.sample(l, k)` derandomised: repeatedly extract the tape-chosen
element; yields `min k (length l)` pairwise-distinct elements of `l`
(`_select_random_blanks` caps `k` at `len(l)` before calling, and the code
sorts the sample afterwards, so the extraction order standing in for the
uniform order is immaterial). -/
def pySample {α : Type} [Inhabited α] : List α → Nat → List Nat → List α
  | _, 0, _ => []
  | [], _ + 1, _ => []
  | a :: rest, k + 1, tape =>
      let l := a :: rest
      let i := tape.headD 0 % l.length
      l.getD i default :: pySample (l.eraseIdx i) k tape.tail

/-- Insert into a key-sorted list of pairs, before the first strictly
greater key. -/
def insertSortedByKey (kv : Nat × String) :
    List (Nat × String) → List (Nat × String)
  | [] => [kv]
  | x :: xs => if kv.1 < x.1 then kv :: x :: xs else x :: insertSortedByKey kv xs

/-- Python's stable `list.sort(key=lambda x: x[0])` as an insertion sort. -/
def sortByKey (l : List (Nat × String)) : List (Nat × String) :=
  l.foldl (fun acc kv => insertSortedByKey kv acc) []

/-- `_select_random_blanks(population, num_blanks)`: cap `num_blanks` at the
population size, sample that many distinct items, sort them by position and
build `{index: word.strip(PUNCTUATION)}` in that order. -/
def selectRandomBlanks (population : List (Nat × String)) (numBlanks : Nat)
    (tape : List Nat) : List (Nat × String) :=
  if population.isEmpty then []
  else if numBlanks = 0 then []
  else
    let k := if population.length < numBlanks then population.length else numBlanks
    let sorted := sortByKey (pySample population k tape)
    sorted.foldl (fun d kv => dictInsert d kv.1 (pyStripChars PUNCTUATION kv.2)) []

/-- The random tape threaded through one call of the generation pipeline. -/
structure Tape where
  draw : Nat
  choiceTape : List Nat
  sampleTape : List Nat
  shuffleTape : List Nat

/-- `_select_blanks(words, min_blanks, max_blanks)`: swap a reversed range,
classify, fix the count, try the non-adjacent strategy and fall back to the
random strategy when it comes up short. -/
def selectBlanks (words : List String) (minBlanks maxBlanks : Nat) (t : Tape) :
    List (Nat × String) :=
  if words.isEmpty then []
  else
    let mm := if maxBlanks < minBlanks then (maxBlanks, minBlanks)
              else (minBlanks, maxBlanks)
    let pop := getBlankSelectionPopulation words
    if pop.isEmpty then []
    else
      let numBlanks := determineNumBlanks pop.length mm.1 mm.2 t.draw
      if numBlanks = 0 then []
      else
        let bd := selectNonAdjacentBlanks pop numBlanks t.choiceTape
        if bd.length < numBlanks then selectRandomBlanks pop numBlanks t.sampleTape
        else bd

/-! ## Display assembly (`_create_display_parts`, `core.py`) -/

/-- `_split_word_and_punctuation(word)`: peel the maximal run of punctuation
characters off the end of the word. -/
def splitWordAndPunctuation (w : String) : String × String :=
  let rev := w.data.reverse
  (String.mk (rev.dropWhile (fun c => PUNCTUATION.contains c)).reverse,
   String.mk (rev.takeWhile (fun c => PUNCTUATION.contains c)).reverse)

/-- Decimal digits of `n`, most significant first; structural in the fuel. -/
def natToDigitsAux : Nat → Nat → List Char
  | 0, _ => []
  | fuel + 1, n =>
      if n < 10 then [Char.ofNat (48 + n)]
      else natToDigitsAux fuel (n / 10) ++ [Char.ofNat (48 + n % 10)]

/-- Decimal rendering of a natural (`n + 1` is always enough fuel). -/
def natToString (n : Nat) : String := String.mk (natToDigitsAux (n + 1) n)

/-- The placeholder `f"BLANK_{i}"`. -/
def blankMarker (i : Nat) : String := String.mk (blankPrefix ++ (natToString i).data)

/-- `_create_display_parts(words, blanks_data)`: one chunk per enumerated
token — a placeholder (plus split-off trailing punctuation, when non-empty)
for a blanked position, the token itself otherwise. -/
def createDisplayParts (words : List String) (blanksData : List (Nat × String)) :
    List String :=
  (words.enum.map (fun iw =>
    if dictHasKey blanksData iw.1 then
      let wp := splitWordAndPunctuation iw.2
      if wp.2.data.isEmpty then [blankMarker iw.1] else [blankMarker iw.1, wp.2]
    else [iw.2])).flatten

/-! ## Exercise generation (`generate_exercise_data`, `core.py`) -/

/-- `_get_fallback_exercise_data()`. -/
def fallbackExerciseData : List String × List (Nat × String) × List String :=
  (["This", "is", "a", "fallback", "text.", "BLANK_4"], [(4, "fallback")],
   ["fallback"])

/-- `random.shuffle(l)` derandomised: a full tape-driven sample. -/
def pyShuffle (l : List String) (tape : List Nat) : List String :=
  pySample l l.length tape

/-- `generate_exercise_data(original_full_text, min_blanks, max_blanks)`:
fall back on empty/whitespace-only text, empty token list, empty blank
selection, empty display parts or empty word bank; otherwise return the
display parts, the blank map, and the shuffled word bank
(`[blanks_data[idx] for idx in blanks_data.keys()]` is the list of values
in insertion order). -/
def generateExerciseData (text : String) (minBlanks maxBlanks : Nat) (t : Tape) :
    List String × List (Nat × String) × List String :=
  if (pyStripWs text).data.isEmpty then fallbackExerciseData
  else
    let words := pySplitWs text
    if words.isEmpty then fallbackExerciseData
    else
      let blanksData := selectBlanks words minBlanks maxBlanks t
      if blanksData.isEmpty then fallbackExerciseData
      else
        let displayParts := createDisplayParts words blanksData
        if displayParts.isEmpty then fallbackExerciseData
        else
          let wordBank := blanksData.map Prod.snd
          if wordBank.isEmpty then fallbackExerciseData
          else (displayParts, blanksData, pyShuffle wordBank t.shuffleTape)

/-! ## Dictionary lemmas -/

theorem dictGet_insert_eq {κ β : Type} [DecidableEq κ] (d : List (κ × β)) (k : κ)
    (v : β) : dictGet (dictInsert d k v) k = some v := by
  induction d with
  | nil => simp [dictInsert, dictGet]
  | cons kv rest ih =>
    by_cases h : kv.1 = k
    · simp [dictInsert, dictGet, h]
    · simp [dictInsert, dictGet, h, ih]

theorem dictGet_insert_ne {κ β : Type} [DecidableEq κ] (d : List (κ × β))
    (k k' : κ) (v : β) (h : k' ≠ k) :
    dictGet (dictInsert d k v) k' = dictGet d k' := by
  have h' : ¬(k = k') := fun hh => h hh.symm
  induction d with
  | nil => simp [dictInsert, dictGet, h']
  | cons kv rest ih =>
    obtain ⟨k₀, v₀⟩ := kv
    by_cases hk : k₀ = k
    · subst hk
      simp [dictInsert, dictGet, h']
    · by_cases hk' : k₀ = k' <;> simp [dictInsert, dictGet, hk, hk', ih, h, h']

theorem dictHasKey_insert {κ β : Type} [DecidableEq κ] (d : List (κ × β))
    (k k' : κ) (v : β) :
    dictHasKey (dictInsert d k v) k' = (decide (k' = k) || dictHasKey d k') := by
  by_cases h : k' = k
  · subst h
    simp [dictHasKey, dictGet_insert_eq]
  · simp [dictHasKey, dictGet_insert_ne _ _ _ _ h, h]

theorem dictGet_eq_none_iff {κ β : Type} [DecidableEq κ] (d : List (κ × β))
    (k : κ) : dictGet d k = none ↔ k ∉ dictKeys d := by
  induction d with
  | nil => simp [dictGet, dictKeys]
  | cons kv rest ih =>
    by_cases h : kv.1 = k
    · simp [dictGet, dictKeys, h]
    · simp [dictGet, dictKeys, h, ih, Ne.symm h]

theorem dictHasKey_iff_mem {κ β : Type} [DecidableEq κ] (d : List (κ × β))
    (k : κ) : dictHasKey d k = true ↔ k ∈ dictKeys d := by
  have h := dictGet_eq_none_iff d k
  rcases hg : dictGet d k with _ | v
  · simpa [dictHasKey, hg] using h.mp hg
  · have : k ∈ dictKeys d := by
      by_contra hk
      rw [← dictGet_eq_none_iff] at hk
      rw [hg] at hk
      cases hk
    simpa [dictHasKey, hg] using this

theorem dictInsert_of_not_mem {κ β : Type} [DecidableEq κ] (d : List (κ × β))
    (k : κ) (v : β) (h : k ∉ dictKeys d) : dictInsert d k v = d ++ [(k, v)] := by
  induction d with
  | nil => simp [dictInsert]
  | cons kv rest ih =>
    simp only [dictKeys, List.map_cons, List.mem_cons] at h
    push_neg at h
    simp [dictInsert, Ne.symm h.1, ih h.2]

theorem foldl_dictInsert_eq_append {κ β γ : Type} [DecidableEq κ] (f : β → γ)
    (l : List (κ × β)) (acc : List (κ × γ))
    (hdisj : ∀ k ∈ l.map Prod.fst, k ∉ dictKeys acc)
    (hnd : (l.map Prod.fst).Nodup) :
    l.foldl (fun d kv => dictInsert d kv.1 (f kv.2)) acc
      = acc ++ l.map (fun kv => (kv.1, f kv.2)) := by
  induction l generalizing acc with
  | nil => simp
  | cons kv rest ih =>
    rw [List.foldl_cons]
    have h1 : kv.1 ∉ dictKeys acc := hdisj kv.1 (by simp)
    rw [dictInsert_of_not_mem _ _ _ h1]
    rw [List.map_cons, List.nodup_cons] at hnd
    rw [ih (acc ++ [(kv.1, f kv.2)])
        (by
          intro k hk
          simp only [dictKeys, List.map_append, List.mem_append, List.map_cons] at *
          push_neg
          refine ⟨hdisj k (by simp [hk]), ?_⟩
          simp only [List.map_nil, List.mem_singleton]
          rintro rfl
          exact hnd.1 hk)
        hnd.2]
    simp

theorem toDict_eq_self {κ β : Type} [DecidableEq κ] (l : List (κ × β))
    (hnd : (dictKeys l).Nodup) : toDict l = l := by
  have h := foldl_dictInsert_eq_append (fun v : β => v) l []
    (by simp [dictKeys]) hnd
  simpa [toDict] using h

/-! ## Grader lemmas -/

theorem grade_foldl_total (CA UA : List (Int × String)) (d : List String)
    (acc : GradeState) :
    (d.foldl (gradeStep CA UA) acc).2.2
      = acc.2.2 + d.countP (fun part => (decodeBlank part).isSome) := by
  induction d generalizing acc with
  | nil => simp
  | cons part rest ih =>
    rw [List.foldl_cons, ih, List.countP_cons]
    rcases h : decodeBlank part with _ | p
    · simp [gradeStep, h]
    · rcases hCA : dictGet CA p with _ | w <;> (simp [gradeStep, h, hCA]; omega)

theorem grade_foldl_score_le (CA UA : List (Int × String)) (d : List String)
    (acc : GradeState) (hacc : acc.2.1 ≤ acc.2.2) :
    (d.foldl (gradeStep CA UA) acc).2.1 ≤ (d.foldl (gradeStep CA UA) acc).2.2 := by
  induction d generalizing acc with
  | nil => simpa
  | cons part rest ih =>
    rw [List.foldl_cons]
    apply ih
    rcases h : decodeBlank part with _ | p
    · simpa [gradeStep, h]
    · rcases hCA : dictGet CA p with _ | w
      · simp [gradeStep, h, hCA]; omega
      · by_cases hc :
          normalizeAnswer ((dictGet UA p).getD "") == normalizeAnswer w
        all_goals (simp [gradeStep, h, hCA, hc]; omega)

theorem gradeStep_hasKey (CA UA : List (Int × String)) (acc : GradeState)
    (part : String) (p : Int) :
    dictHasKey (gradeStep CA UA acc part).1 p = true ↔
      (dictHasKey acc.1 p = true ∨
        (decodeBlank part = some p ∧ dictHasKey CA p = true)) := by
  rcases h : decodeBlank part with _ | q
  · simp [gradeStep, h]
  · rcases hCA : dictGet CA q with _ | w
    · have hstep : (gradeStep CA UA acc part).1 = acc.1 := by
        simp [gradeStep, h, hCA]
      rw [hstep]
      constructor
      · exact fun hk => Or.inl hk
      · rintro (hk | ⟨hdec, hCAp⟩)
        · exact hk
        · injection hdec with hq
          subst hq
          simp [dictHasKey, hCA] at hCAp
    · have hstep : (gradeStep CA UA acc part).1
          = dictInsert acc.1 q
              ⟨(dictGet UA q).getD "", w,
               normalizeAnswer ((dictGet UA q).getD "") == normalizeAnswer w⟩ := by
        simp [gradeStep, h, hCA]
      rw [hstep, dictHasKey_insert]
      by_cases hpq : p = q
      · subst hpq
        simp [dictHasKey, hCA]
      · have hqp : ¬(q = p) := fun hh => hpq hh.symm
        simp [hpq, hqp]

theorem grade_foldl_hasKey (CA UA : List (Int × String)) (d : List String)
    (acc : GradeState) (p : Int) :
    dictHasKey (d.foldl (gradeStep CA UA) acc).1 p = true ↔
      (dictHasKey acc.1 p = true ∨
        ((∃ part ∈ d, decodeBlank part = some p) ∧ dictHasKey CA p = true)) := by
  induction d generalizing acc with
  | nil => simp
  | cons part rest ih =>
    rw [List.foldl_cons, ih, gradeStep_hasKey]
    constructor
    · rintro ((hk | ⟨hdec, hca⟩) | ⟨⟨part', hp', hdec⟩, hca⟩)
      · exact Or.inl hk
      · exact Or.inr ⟨⟨part, List.mem_cons_self _ _, hdec⟩, hca⟩
      · exact Or.inr ⟨⟨part', List.mem_cons_of_mem _ hp', hdec⟩, hca⟩
    · rintro (hk | ⟨⟨part', hp', hdec⟩, hca⟩)
      · exact Or.inl (Or.inl hk)
      · rcases List.mem_cons.mp hp' with rfl | hp'
        · exact Or.inl (Or.inr ⟨hdec, hca⟩)
        · exact Or.inr ⟨⟨part', hp', hdec⟩, hca⟩

theorem mem_dictKeys_toDict {κ β : Type} [DecidableEq κ] (l : List (κ × β))
    (k : κ) : k ∈ dictKeys (toDict l) ↔ k ∈ dictKeys l := by
  have main : ∀ (l : List (κ × β)) (acc : List (κ × β)),
      (k ∈ dictKeys (l.foldl (fun d kv => dictInsert d kv.1 kv.2) acc) ↔
        k ∈ dictKeys acc ∨ k ∈ dictKeys l) := by
    intro l
    induction l with
    | nil => simp [dictKeys]
    | cons kv rest ih =>
      intro acc
      rw [List.foldl_cons, ih]
      have hins : k ∈ dictKeys (dictInsert acc kv.1 kv.2) ↔
          (k = kv.1 ∨ k ∈ dictKeys acc) := by
        rw [← dictHasKey_iff_mem, dictHasKey_insert, ← dictHasKey_iff_mem]
        simp
      rw [hins]
      simp only [dictKeys, List.map_cons, List.mem_cons]
      tauto
  have h := main l []
  simpa [toDict, dictKeys] using h

theorem grade_foldl_self (b : List (Int × String)) (d : List String)
    (hnd : (dictKeys b).Nodup)
    (hcov : ∀ part ∈ d, ∀ p : Int, decodeBlank part = some p →
      dictHasKey b p = true)
    (acc : GradeState) (hacc : acc.2.1 = acc.2.2) :
    (d.foldl (gradeStep (toDict b) b) acc).2.1
      = (d.foldl (gradeStep (toDict b) b) acc).2.2 := by
  rw [toDict_eq_self b hnd]
  induction d generalizing acc with
  | nil => simpa
  | cons part rest ih =>
    rw [List.foldl_cons]
    apply ih (fun part' hp' => hcov part' (List.mem_cons_of_mem _ hp'))
    rcases h : decodeBlank part with _ | p
    · simpa [gradeStep, h]
    · have hb : dictHasKey b p = true := hcov part (List.mem_cons_self _ _) p h
      obtain ⟨v, hv⟩ := Option.isSome_iff_exists.mp hb
      have hcorr : (normalizeAnswer ((dictGet b p).getD "")
          == normalizeAnswer v) = true := by
        rw [hv]
        exact beq_self_eq_true _
      simp [gradeStep, h, hv, hcorr, hacc]

theorem grade_foldl_countP (CA UA : List (Int × String)) (d : List String)
    (acc : GradeState) (seen : List Int)
    (hseen : ∀ p : Int, dictHasKey acc.1 p = true → p ∈ seen)
    (hnd : (seen ++ d.filterMap decodeBlank).Nodup)
    (hcnt : acc.1.countP (fun kv => kv.2.is_correct) = acc.2.1) :
    (d.foldl (gradeStep CA UA) acc).1.countP (fun kv => kv.2.is_correct)
      = (d.foldl (gradeStep CA UA) acc).2.1 := by
  induction d generalizing acc seen with
  | nil => simpa
  | cons part rest ih =>
    rw [List.foldl_cons]
    rcases h : decodeBlank part with _ | p
    · have hstep : gradeStep CA UA acc part = acc := by simp [gradeStep, h]
      rw [hstep]
      exact ih acc seen hseen (by simpa [List.filterMap_cons, h] using hnd) hcnt
    · have hnd' : (seen ++ p :: rest.filterMap decodeBlank).Nodup := by
        simpa [List.filterMap_cons, h] using hnd
      have hpseen : p ∉ seen := by
        intro hp
        exact (List.nodup_append.mp hnd').2.2 hp (List.mem_cons_self _ _)
      have hnd'' : ((seen ++ [p]) ++ rest.filterMap decodeBlank).Nodup := by
        rw [List.append_assoc]
        exact hnd'
      rcases hCA : dictGet CA p with _ | w
      · have hstep : gradeStep CA UA acc part = (acc.1, acc.2.1, acc.2.2 + 1) := by
          simp [gradeStep, h, hCA]
        rw [hstep]
        exact ih (acc.1, acc.2.1, acc.2.2 + 1) (seen ++ [p])
          (fun q hq => List.mem_append_left _ (hseen q hq)) hnd'' hcnt
      · have hnotkey : p ∉ dictKeys acc.1 := by
          intro hp
          exact hpseen (hseen p ((dictHasKey_iff_mem _ _).mpr hp))
        have hseenIns : ∀ (e : GradeEntry) (q : Int),
            dictHasKey (dictInsert acc.1 p e) q = true → q ∈ seen ++ [p] := by
          intro e q hq
          rw [dictHasKey_insert] at hq
          rcases Bool.or_eq_true _ _ |>.mp hq with hq | hq
          · exact List.mem_append_right _ (by simp [of_decide_eq_true hq])
          · exact List.mem_append_left _ (hseen q hq)
        rcases hc : (normalizeAnswer ((dictGet UA p).getD "")
            == normalizeAnswer w) with _ | _
        · have hstep : gradeStep CA UA acc part =
              (dictInsert acc.1 p ⟨(dictGet UA p).getD "", w, false⟩,
               acc.2.1, acc.2.2 + 1) := by
            simp [gradeStep, h, hCA, hc]
          rw [hstep]
          apply ih _ (seen ++ [p]) (hseenIns _) hnd''
          rw [dictInsert_of_not_mem _ _ _ hnotkey]
          simp [List.countP_append, List.countP_cons, hcnt]
        · have hstep : gradeStep CA UA acc part =
              (dictInsert acc.1 p ⟨(dictGet UA p).getD "", w, true⟩,
               acc.2.1 + 1, acc.2.2 + 1) := by
            simp [gradeStep, h, hCA, hc]
          rw [hstep]
          apply ih _ (seen ++ [p]) (hseenIns _) hnd''
          rw [dictInsert_of_not_mem _ _ _ hnotkey]
          simp [List.countP_append, List.countP_cons, hcnt]

/-! ## Claims about the grader (C1, C6, C10) -/

/-- C1, counterexample: grading `{}` against display `["BLANK_3"]` counts the
placeholder in `total` (total = 1) but records no entry at all in `results`,
refuting "still records an entry for p in the results map" for the missing
position 3. -/
theorem C1_counterexample :
    (evaluateAnswers [] [] ["BLANK_3"]).2.2 = 1 ∧
    (evaluateAnswers [] [] ["BLANK_3"]).1 = [] := by decide

/-- C1 (amended): the reported total equals the number of display entries that
parse as a `BLANK_<integer>` placeholder (not the size of the blanks map), and
a placeholder whose decoded position is absent from the blanks map is counted
in `total` but otherwise skipped: no entry for it is recorded in the results
map. -/
theorem C1_grader_total_counts_markers (u b : List (Int × String))
    (d : List String) :
    (evaluateAnswers u b d).2.2
      = d.countP (fun part => (decodeBlank part).isSome) ∧
    ∀ p : Int, p ∉ dictKeys b → dictGet (evaluateAnswers u b d).1 p = none := by
  constructor
  · simpa using grade_foldl_total (toDict b) u d ([], 0, 0)
  · intro p hp
    rw [dictGet_eq_none_iff]
    intro hmem
    have hk := (grade_foldl_hasKey (toDict b) u d ([], 0, 0) p).mp
      ((dictHasKey_iff_mem _ _).mpr hmem)
    rcases hk with hk | ⟨_, hk⟩
    · simp [dictHasKey, dictGet] at hk
    · exact hp ((mem_dictKeys_toDict b p).mp ((dictHasKey_iff_mem _ _).mp hk))

/-- C1, witness: a graded submission where display position 7 is missing from
the blanks map; the theorem yields that no results entry exists for 7. -/
theorem C1_witness :
    dictGet (evaluateAnswers [(2, "dog")] [(0, "cat")]
      ["BLANK_0", "BLANK_7"]).1 7 = none :=
  (C1_grader_total_counts_markers [(2, "dog")] [(0, "cat")]
    ["BLANK_0", "BLANK_7"]).2 7 (by decide)

/-- C6, counterexample: with the empty blanks map and display `["BLANK_0"]`,
the submission (trivially) agrees with the blanks map on every key, yet
`score = 0 ≠ 1 = total`, refuting "for every blanks map and display sequence
... score == total == the number of placeholders". -/
theorem C6_counterexample :
    (evaluateAnswers [] [] ["BLANK_0"]).2.1 = 0 ∧
    (evaluateAnswers [] [] ["BLANK_0"]).2.2 = 1 ∧
    (evaluateAnswers [] [] ["BLANK_0"]).2.1
      ≠ (evaluateAnswers [] [] ["BLANK_0"]).2.2 := by decide

/-- C6 (amended): grading compares answers after trimming whitespace and
lowercasing both, so `grade({0: " Cat "}, {0: "cat"}, ["BLANK_0"])` marks the
answer correct; and submitting the blanks map itself yields
`score == total == number of decoded placeholders` provided every decoded
placeholder position occurs in the blanks map. -/
theorem C6_grading_normalized_and_idempotent :
    dictGet (evaluateAnswers [(0, " Cat ")] [(0, "cat")] ["BLANK_0"]).1 0
      = some ⟨" Cat ", "cat", true⟩ ∧
    ∀ (b : List (Int × String)) (d : List String),
      (dictKeys b).Nodup →
      ((d.filterMap decodeBlank).all (fun p => dictHasKey b p)) = true →
      (evaluateAnswers b b d).2.1 = (evaluateAnswers b b d).2.2 ∧
      (evaluateAnswers b b d).2.2
        = d.countP (fun part => (decodeBlank part).isSome) := by
  refine ⟨by decide, ?_⟩
  intro b d hnd hcov
  have hcov' : ∀ part ∈ d, ∀ p : Int, decodeBlank part = some p →
      dictHasKey b p = true := by
    intro part hpart p hdec
    exact List.all_eq_true.mp hcov p (List.mem_filterMap.mpr ⟨part, hpart, hdec⟩)
  exact ⟨grade_foldl_self b d hnd hcov' ([], 0, 0) rfl,
    by simpa using grade_foldl_total (toDict b) b d ([], 0, 0)⟩

/-- C6, witness: the idempotence part applied to the one-blank exercise
`{0: "cat"}` with display `["BLANK_0"]`. -/
theorem C6_witness :
    (evaluateAnswers [(0, "cat")] [(0, "cat")] ["BLANK_0"]).2.1
      = (evaluateAnswers [(0, "cat")] [(0, "cat")] ["BLANK_0"]).2.2 :=
  ((C6_grading_normalized_and_idempotent).2 [(0, "cat")] ["BLANK_0"]
    (by decide) (by decide)).1

/-- C10, counterexample: with a duplicated placeholder in the display list the
score is incremented once per occurrence (score = 2) while the results map
holds a single correct entry, refuting "score equals the number of results
entries whose is_correct field is true". -/
theorem C10_counterexample :
    (evaluateAnswers [(0, "cat")] [(0, "cat")] ["BLANK_0", "BLANK_0"]).2.1 = 2 ∧
    (evaluateAnswers [(0, "cat")] [(0, "cat")] ["BLANK_0", "BLANK_0"]).1.countP
      (fun kv => kv.2.is_correct) = 1 := by decide

/-- C10 (amended): for every call to the grader, `score ≤ total`; the key set
of the results map is exactly the set of positions that both decode from a
`BLANK_<integer>` display entry and occur as a key of the blanks map; and
when the decoded placeholder positions are pairwise distinct, `score` equals
the number of results entries whose `is_correct` field is true. -/
theorem C10_grader_invariants (u b : List (Int × String)) (d : List String) :
    (evaluateAnswers u b d).2.1 ≤ (evaluateAnswers u b d).2.2 ∧
    (∀ p : Int, p ∈ dictKeys (evaluateAnswers u b d).1 ↔
      ((∃ part ∈ d, decodeBlank part = some p) ∧ p ∈ dictKeys b)) ∧
    ((d.filterMap decodeBlank).Nodup →
      (evaluateAnswers u b d).2.1
        = (evaluateAnswers u b d).1.countP (fun kv => kv.2.is_correct)) := by
  refine ⟨?_, ?_, ?_⟩
  · exact grade_foldl_score_le (toDict b) u d ([], 0, 0) (Nat.le_refl 0)
  · intro p
    rw [← dictHasKey_iff_mem]
    unfold evaluateAnswers
    rw [grade_foldl_hasKey]
    constructor
    · rintro (hk | ⟨hdec, hca⟩)
      · simp [dictHasKey, dictGet] at hk
      · exact ⟨hdec, (mem_dictKeys_toDict b p).mp ((dictHasKey_iff_mem _ _).mp hca)⟩
    · rintro ⟨hdec, hmem⟩
      exact Or.inr ⟨hdec,
        (dictHasKey_iff_mem _ _).mpr ((mem_dictKeys_toDict b p).mpr hmem)⟩
  · intro hnd
    exact (grade_foldl_countP (toDict b) u d ([], 0, 0) []
      (by simp [dictHasKey, dictGet]) (by simpa using hnd) rfl).symm

/-- C10, witness: the score/countP identity applied to a two-blank display
with distinct decoded positions. -/
theorem C10_witness :
    (evaluateAnswers [(0, "cat"), (3, "dog")] [(0, "cat"), (3, "fox")]
      ["BLANK_0", "x", "BLANK_3"]).2.1
      = (evaluateAnswers [(0, "cat"), (3, "dog")] [(0, "cat"), (3, "fox")]
          ["BLANK_0", "x", "BLANK_3"]).1.countP (fun kv => kv.2.is_correct) :=
  (C10_grader_invariants [(0, "cat"), (3, "dog")] [(0, "cat"), (3, "fox")]
    ["BLANK_0", "x", "BLANK_3"]).2.2 (by decide)

/-! ## Further dictionary lemmas -/

theorem mem_dictInsert {κ β : Type} [DecidableEq κ] (d : List (κ × β)) (k : κ)
    (v : β) (kv : κ × β) (h : kv ∈ dictInsert d k v) : kv = (k, v) ∨ kv ∈ d := by
  induction d with
  | nil => simpa [dictInsert] using h
  | cons kv₀ rest ih =>
    obtain ⟨k₀, v₀⟩ := kv₀
    by_cases hk : k₀ = k
    · simp only [dictInsert, hk, if_pos rfl] at h
      rcases List.mem_cons.mp h with rfl | h
      · exact Or.inl rfl
      · exact Or.inr (List.mem_cons_of_mem _ h)
    · simp only [dictInsert, if_neg hk] at h
      rcases List.mem_cons.mp h with rfl | h
      · exact Or.inr (List.mem_cons_self _ _)
      · rcases ih h with h | h
        · exact Or.inl h
        · exact Or.inr (List.mem_cons_of_mem _ h)

theorem mem_dictKeys_insert {κ β : Type} [DecidableEq κ] (d : List (κ × β))
    (k k' : κ) (v : β) :
    k' ∈ dictKeys (dictInsert d k v) ↔ k' = k ∨ k' ∈ dictKeys d := by
  rw [← dictHasKey_iff_mem, dictHasKey_insert, ← dictHasKey_iff_mem]
  simp

theorem dictKeys_insert_nodup {κ β : Type} [DecidableEq κ] (d : List (κ × β))
    (k : κ) (v : β) (h : (dictKeys d).Nodup) :
    (dictKeys (dictInsert d k v)).Nodup := by
  induction d with
  | nil => simp [dictInsert, dictKeys]
  | cons kv₀ rest ih =>
    obtain ⟨k₀, v₀⟩ := kv₀
    simp only [dictKeys, List.map_cons, List.nodup_cons] at h
    by_cases hk : k₀ = k
    · subst hk
      simpa [dictInsert, dictKeys] using h
    · simp only [dictInsert, if_neg hk, dictKeys, List.map_cons, List.nodup_cons]
      refine ⟨?_, ih h.2⟩
      intro hmem
      rcases (mem_dictKeys_insert rest k k₀ v).mp hmem with rfl | hmem
      · exact hk rfl
      · exact h.1 hmem

theorem dictInsert_length_le {κ β : Type} [DecidableEq κ] (d : List (κ × β))
    (k : κ) (v : β) : (dictInsert d k v).length ≤ d.length + 1 := by
  induction d with
  | nil => simp [dictInsert]
  | cons kv₀ rest ih =>
    obtain ⟨k₀, v₀⟩ := kv₀
    by_cases hk : k₀ = k <;> simp [dictInsert, hk]
    omega

/-! ## Word classifier lemmas -/

theorem population_sublist_enum (words : List String) :
    (getBlankSelectionPopulation words).Sublist words.enum :=
  List.filter_sublist _

theorem population_keys_sublist_range (words : List String) :
    ((getBlankSelectionPopulation words).map Prod.fst).Sublist
      (List.range words.length) := by
  have h := (population_sublist_enum words).map Prod.fst
  rwa [List.enum_map_fst] at h

theorem population_keys_nodup (words : List String) :
    ((getBlankSelectionPopulation words).map Prod.fst).Nodup :=
  (population_keys_sublist_range words).nodup (List.nodup_range _)

theorem population_keys_lt (words : List String) (k : Nat)
    (h : k ∈ (getBlankSelectionPopulation words).map Prod.fst) :
    k < words.length := by
  have := (population_keys_sublist_range words).subset h
  simpa [List.mem_range] using this

theorem mem_population (words : List String) (iw : Nat × String)
    (h : iw ∈ getBlankSelectionPopulation words) : words[iw.1]? = some iw.2 :=
  List.mem_enum_iff_getElem?.mp ((population_sublist_enum words).subset h)

/-! ## Blank count policy lemmas -/

theorem randintT_le (x y r : Nat) (hxy : x ≤ y) : randintT x y r ≤ y := by
  unfold randintT
  have := Nat.mod_lt r (y := y - x + 1) (by omega)
  omega

theorem determineNumBlanks_le (p a b r : Nat) :
    determineNumBlanks p a b r ≤ max 1 (p / 2) := by
  by_cases hp : p = 0
  · simp [determineNumBlanks, hp]
  · have hbody : determineNumBlanks p a b r =
        (if min b (max 1 (p / 2)) < min a (max 1 (p / 2))
         then min a (max 1 (p / 2))
         else if randintT (min a (max 1 (p / 2))) (min b (max 1 (p / 2))) r = 0
                ∧ 0 < max 1 (p / 2)
              then 1
              else randintT (min a (max 1 (p / 2))) (min b (max 1 (p / 2))) r) := by
      simp only [determineNumBlanks, if_neg hp]
    rw [hbody]
    split_ifs with h1 h2
    · exact Nat.min_le_right _ _
    · exact Nat.le_max_left _ _
    · push_neg at h1
      exact le_trans (randintT_le _ _ r h1) (Nat.min_le_right _ _)

/-- The concrete policy scenario of the documentation: population 1,
requested range [3, 5], result 1 whatever the random draw. -/
theorem determineNumBlanks_one (r : Nat) : determineNumBlanks 1 3 5 r = 1 := by
  simp [determineNumBlanks, randintT, Nat.mod_one]

/-! ## Non-adjacent selection lemmas -/

theorem getD_mod_mem {α : Type} (l : List α) (hl : l ≠ []) (t : Nat) (dflt : α) :
    l.getD (t % l.length) dflt ∈ l := by
  have hi : t % l.length < l.length := Nat.mod_lt _ (List.length_pos.mpr hl)
  rw [List.getD_eq_getElem l dflt hi]
  exact List.getElem_mem hi

/-- One unfolding step of the selection loop on a non-empty pool. -/
theorem selectNonAdjacentGo_succ (fuel : Nat) (a : Nat × String)
    (rest acc : List (Nat × String)) (tape : List Nat) :
    selectNonAdjacentGo (fuel + 1) (a :: rest) acc tape =
      selectNonAdjacentGo fuel
        ((a :: rest).filter (fun p =>
          p.1 != ((a :: rest).getD (tape.headD 0 % (a :: rest).length) (0, "")).1
          && p.1 + 1
              != ((a :: rest).getD (tape.headD 0 % (a :: rest).length) (0, "")).1
          && p.1
              != ((a :: rest).getD (tape.headD 0 % (a :: rest).length) (0, "")).1
                + 1))
        (dictInsert acc
          ((a :: rest).getD (tape.headD 0 % (a :: rest).length) (0, "")).1
          (pyStripChars PUNCTUATION
            ((a :: rest).getD (tape.headD 0 % (a :: rest).length) (0, "")).2))
        tape.tail := rfl

theorem selectNonAdjacentGo_length_le (fuel : Nat)
    (avail acc : List (Nat × String)) (tape : List Nat) :
    (selectNonAdjacentGo fuel avail acc tape).length ≤ acc.length + fuel := by
  induction fuel generalizing avail acc tape with
  | zero => simp [selectNonAdjacentGo]
  | succ fuel ih =>
    match avail with
    | [] => simp [selectNonAdjacentGo]
    | a :: rest =>
      rw [selectNonAdjacentGo_succ]
      calc (selectNonAdjacentGo fuel _ _ _).length
          ≤ (dictInsert acc _ _).length + fuel := ih _ _ _
        _ ≤ acc.length + 1 + fuel := by
            have := dictInsert_length_le acc
              ((a :: rest).getD (tape.headD 0 % (a :: rest).length) (0, "")).1
              (pyStripChars PUNCTUATION
                ((a :: rest).getD (tape.headD 0 % (a :: rest).length) (0, "")).2)
            omega
        _ = acc.length + (fuel + 1) := by omega

theorem selectNonAdjacentGo_mem (fuel : Nat) (avail acc : List (Nat × String))
    (tape : List Nat) (kv : Nat × String)
    (h : kv ∈ selectNonAdjacentGo fuel avail acc tape) :
    kv ∈ acc ∨ ∃ w, (kv.1, w) ∈ avail ∧ kv.2 = pyStripChars PUNCTUATION w := by
  induction fuel generalizing avail acc tape with
  | zero => exact Or.inl h
  | succ fuel ih =>
    match avail with
    | [] => exact Or.inl h
    | a :: rest =>
      rw [selectNonAdjacentGo_succ] at h
      have hc : (a :: rest).getD (tape.headD 0 % (a :: rest).length) (0, "")
          ∈ a :: rest := getD_mod_mem _ (by simp) _ _
      rcases ih _ _ _ h with hmem | ⟨w, hw, hv⟩
      · rcases mem_dictInsert _ _ _ _ hmem with rfl | hmem
        · exact Or.inr ⟨_, hc, rfl⟩
        · exact Or.inl hmem
      · exact Or.inr ⟨w, (List.mem_filter.mp hw).1, hv⟩

theorem selectNonAdjacentGo_keys_nodup (fuel : Nat)
    (avail acc : List (Nat × String)) (tape : List Nat)
    (h : (dictKeys acc).Nodup) :
    (dictKeys (selectNonAdjacentGo fuel avail acc tape)).Nodup := by
  induction fuel generalizing avail acc tape with
  | zero => exact h
  | succ fuel ih =>
    match avail with
    | [] => exact h
    | a :: rest =>
      rw [selectNonAdjacentGo_succ]
      exact ih _ _ _ (dictKeys_insert_nodup _ _ _ h)

theorem selectNonAdjacentGo_nonadj (fuel : Nat)
    (avail acc : List (Nat × String)) (tape : List Nat)
    (hacc : ∀ k1 ∈ dictKeys acc, ∀ k2 ∈ dictKeys acc, k1 + 1 ≠ k2)
    (hsep : ∀ iw ∈ avail, ∀ k ∈ dictKeys acc,
      iw.1 ≠ k ∧ iw.1 + 1 ≠ k ∧ k + 1 ≠ iw.1) :
    ∀ k1 ∈ dictKeys (selectNonAdjacentGo fuel avail acc tape),
    ∀ k2 ∈ dictKeys (selectNonAdjacentGo fuel avail acc tape), k1 + 1 ≠ k2 := by
  induction fuel generalizing avail acc tape with
  | zero => exact hacc
  | succ fuel ih =>
    match avail with
    | [] => exact hacc
    | a :: rest =>
      rw [selectNonAdjacentGo_succ]
      set c := (a :: rest).getD (tape.headD 0 % (a :: rest).length) (0, "")
        with hcdef
      have hcmem : c ∈ a :: rest := getD_mod_mem _ (by simp) _ _
      have hfresh : c.1 ∉ dictKeys acc := by
        intro hk
        exact (hsep c hcmem c.1 hk).1 rfl
      have hkeys : dictKeys (dictInsert acc c.1 (pyStripChars PUNCTUATION c.2))
          = dictKeys acc ++ [c.1] := by
        rw [dictInsert_of_not_mem _ _ _ hfresh]
        simp [dictKeys]
      apply ih
      · rw [hkeys]
        intro k1 hk1 k2 hk2
        rcases List.mem_append.mp hk1 with hk1 | hk1 <;>
          rcases List.mem_append.mp hk2 with hk2 | hk2
        · exact hacc k1 hk1 k2 hk2
        · rcases List.mem_singleton.mp hk2 with rfl
          exact (hsep c hcmem k1 hk1).2.2
        · rcases List.mem_singleton.mp hk1 with rfl
          exact fun hcontra => (hsep c hcmem k2 hk2).2.1 hcontra
        · rcases List.mem_singleton.mp hk1 with rfl
          rcases List.mem_singleton.mp hk2 with rfl
          omega
      · intro iw hiw k hk
        have hmem := List.mem_filter.mp hiw
        have hconds := hmem.2
        rw [Bool.and_eq_true, Bool.and_eq_true] at hconds
        obtain ⟨⟨hc1, hc2⟩, hc3⟩ := hconds
        rw [hkeys] at hk
        rcases List.mem_append.mp hk with hk | hk
        · exact hsep iw hmem.1 k hk
        · rcases List.mem_singleton.mp hk with rfl
          refine ⟨bne_iff_ne.mp hc1, bne_iff_ne.mp hc2, ?_⟩
          have := bne_iff_ne.mp hc3
          omega

theorem selectNonAdjacentBlanks_mem (population : List (Nat × String))
    (numBlanks : Nat) (tape : List Nat) (kv : Nat × String)
    (h : kv ∈ selectNonAdjacentBlanks population numBlanks tape) :
    ∃ w, (kv.1, w) ∈ population ∧ kv.2 = pyStripChars PUNCTUATION w := by
  unfold selectNonAdjacentBlanks at h
  split_ifs at h with h1 h2
  · cases h
  · cases h
  · rcases selectNonAdjacentGo_mem _ _ _ _ _ h with hmem | hmem
    · cases hmem
    · exact hmem

theorem selectNonAdjacentBlanks_keys_nodup (population : List (Nat × String))
    (numBlanks : Nat) (tape : List Nat) :
    (dictKeys (selectNonAdjacentBlanks population numBlanks tape)).Nodup := by
  unfold selectNonAdjacentBlanks
  split_ifs with h1 h2
  · simp [dictKeys]
  · simp [dictKeys]
  · exact selectNonAdjacentGo_keys_nodup _ _ _ _ (by simp [dictKeys])

theorem selectNonAdjacentBlanks_length_le (population : List (Nat × String))
    (numBlanks : Nat) (tape : List Nat) :
    (selectNonAdjacentBlanks population numBlanks tape).length ≤ numBlanks := by
  unfold selectNonAdjacentBlanks
  split_ifs with h1 h2
  · simp
  · simp
  · have := selectNonAdjacentGo_length_le numBlanks population [] tape
    simpa using this

/-! ## Random sampling and sorting lemmas -/

theorem getD_cons_eraseIdx_perm {α : Type} (l : List α) (i : Nat) (dflt : α)
    (h : i < l.length) : (l.getD i dflt :: l.eraseIdx i).Perm l := by
  induction l generalizing i with
  | nil => simp at h
  | cons a rest ih =>
    cases i with
    | zero => simp [List.eraseIdx]
    | succ i =>
      have hi : i < rest.length := by simpa using h
      have hgd : (a :: rest).getD (i + 1) dflt = rest.getD i dflt := by
        simp [List.getD]
      rw [hgd, List.eraseIdx_cons_succ]
      exact (List.Perm.swap a _ _).trans (List.Perm.cons a (ih i hi))

theorem pySample_length {α : Type} [Inhabited α] (l : List α) (k : Nat)
    (tape : List Nat) : (pySample l k tape).length = min k l.length := by
  induction k generalizing l tape with
  | zero => simp [pySample]
  | succ k ih =>
    match l with
    | [] => simp [pySample]
    | a :: rest =>
      rw [show pySample (a :: rest) (k + 1) tape
          = (a :: rest).getD (tape.headD 0 % (a :: rest).length) default ::
              pySample ((a :: rest).eraseIdx (tape.headD 0 % (a :: rest).length))
                k tape.tail from rfl]
      have hi : tape.headD 0 % (a :: rest).length < (a :: rest).length :=
        Nat.mod_lt _ (by simp)
      rw [List.length_cons, ih, List.length_eraseIdx, if_pos hi]
      simp only [List.length_cons] at *
      omega

theorem subperm_map {α β : Type} (f : α → β) {s t : List α} (h : s.Subperm t) :
    (s.map f).Subperm (t.map f) := by
  obtain ⟨l', hp, hs⟩ := h
  exact ⟨l'.map f, hp.map f, hs.map f⟩

theorem pySample_subperm {α : Type} [Inhabited α] (l : List α) (k : Nat)
    (tape : List Nat) : (pySample l k tape).Subperm l := by
  induction k generalizing l tape with
  | zero => simp [pySample, List.nil_subperm]
  | succ k ih =>
    match l with
    | [] => simp [pySample, List.nil_subperm]
    | a :: rest =>
      rw [show pySample (a :: rest) (k + 1) tape
          = (a :: rest).getD (tape.headD 0 % (a :: rest).length) default ::
              pySample ((a :: rest).eraseIdx (tape.headD 0 % (a :: rest).length))
                k tape.tail from rfl]
      have hi : tape.headD 0 % (a :: rest).length < (a :: rest).length :=
        Nat.mod_lt _ (by simp)
      have hperm := getD_cons_eraseIdx_perm (a :: rest)
        (tape.headD 0 % (a :: rest).length) default hi
      have h1 := ih ((a :: rest).eraseIdx (tape.headD 0 % (a :: rest).length))
        tape.tail
      exact ((List.subperm_cons _).mpr h1).trans hperm.subperm

theorem insertSortedByKey_perm (kv : Nat × String) (l : List (Nat × String)) :
    (insertSortedByKey kv l).Perm (kv :: l) := by
  induction l with
  | nil => simp [insertSortedByKey]
  | cons x xs ih =>
    by_cases h : kv.1 < x.1
    · simp [insertSortedByKey, h]
    · simp only [insertSortedByKey, if_neg h]
      exact (List.Perm.cons x ih).trans (List.Perm.swap kv x xs)

theorem insertSortedByKey_sorted (kv : Nat × String) (l : List (Nat × String))
    (h : List.Pairwise (fun a b : Nat × String => a.1 ≤ b.1) l) :
    List.Pairwise (fun a b : Nat × String => a.1 ≤ b.1)
      (insertSortedByKey kv l) := by
  induction l with
  | nil => simp [insertSortedByKey]
  | cons x xs ih =>
    rcases List.pairwise_cons.mp h with ⟨hx, hxs⟩
    by_cases hlt : kv.1 < x.1
    · simp only [insertSortedByKey, if_pos hlt]
      refine List.pairwise_cons.mpr ⟨?_, h⟩
      intro y hy
      rcases List.mem_cons.mp hy with rfl | hy
      · omega
      · exact le_trans (Nat.le_of_lt hlt) (hx y hy)
    · simp only [insertSortedByKey, if_neg hlt]
      refine List.pairwise_cons.mpr ⟨?_, ih hxs⟩
      intro y hy
      rcases List.mem_cons.mp ((insertSortedByKey_perm kv xs).mem_iff.mp hy)
        with rfl | hy'
      · omega
      · exact hx y hy'

theorem sortByKey_perm (l : List (Nat × String)) : (sortByKey l).Perm l := by
  have main : ∀ (l acc : List (Nat × String)),
      (l.foldl (fun a kv => insertSortedByKey kv a) acc).Perm (acc ++ l) := by
    intro l
    induction l with
    | nil => simp
    | cons kv rest ih =>
      intro acc
      rw [List.foldl_cons]
      refine (ih _).trans ?_
      have h1 : (insertSortedByKey kv acc ++ rest).Perm ((kv :: acc) ++ rest) :=
        (insertSortedByKey_perm kv acc).append_right rest
      have h2 : ((kv :: acc) ++ rest).Perm (acc ++ kv :: rest) := by
        have h := (@List.perm_middle _ kv acc rest).symm
        simpa using h
      exact h1.trans h2
  simpa [sortByKey] using main l []

theorem sortByKey_sorted (l : List (Nat × String)) :
    List.Pairwise (fun a b : Nat × String => a.1 ≤ b.1) (sortByKey l) := by
  have main : ∀ (l acc : List (Nat × String)),
      List.Pairwise (fun a b : Nat × String => a.1 ≤ b.1) acc →
      List.Pairwise (fun a b : Nat × String => a.1 ≤ b.1)
        (l.foldl (fun a kv => insertSortedByKey kv a) acc) := by
    intro l
    induction l with
    | nil => exact fun acc h => h
    | cons kv rest ih =>
      intro acc h
      rw [List.foldl_cons]
      exact ih _ (insertSortedByKey_sorted kv acc h)
  exact main l [] (by simp)

/-! ## Random-fallback selection lemmas -/

theorem selectRandomBlanks_eq_map (population : List (Nat × String))
    (numBlanks : Nat) (tape : List Nat) (hpop : ¬population.isEmpty = true)
    (hn : numBlanks ≠ 0) (hnd : (population.map Prod.fst).Nodup) :
    selectRandomBlanks population numBlanks tape
      = (sortByKey (pySample population
          (if population.length < numBlanks then population.length else numBlanks)
          tape)).map (fun kv => (kv.1, pyStripChars PUNCTUATION kv.2)) := by
  unfold selectRandomBlanks
  rw [if_neg hpop, if_neg hn]
  have hsub := pySample_subperm population
    (if population.length < numBlanks then population.length else numBlanks) tape
  have hsampnd : ((pySample population
      (if population.length < numBlanks then population.length else numBlanks)
      tape).map Prod.fst).Nodup := by
    obtain ⟨l', hp, hs⟩ := subperm_map Prod.fst hsub
    exact hp.nodup (hs.nodup hnd)
  have hsortnd : ((sortByKey (pySample population
      (if population.length < numBlanks then population.length else numBlanks)
      tape)).map Prod.fst).Nodup :=
    ((sortByKey_perm (pySample population
      (if population.length < numBlanks then population.length else numBlanks)
      tape)).map Prod.fst).symm.nodup hsampnd
  exact foldl_dictInsert_eq_append (pyStripChars PUNCTUATION) _ []
    (by simp [dictKeys]) hsortnd

theorem selectRandomBlanks_spec (population : List (Nat × String))
    (numBlanks : Nat) (tape : List Nat) (hpop : population ≠ [])
    (hn : numBlanks ≠ 0) (hnd : (population.map Prod.fst).Nodup) :
    (selectRandomBlanks population numBlanks tape).length
        = min numBlanks population.length ∧
    List.Pairwise (fun a b : Nat × String => a.1 < b.1)
      (selectRandomBlanks population numBlanks tape) ∧
    ∀ kv ∈ selectRandomBlanks population numBlanks tape,
      ∃ w, (kv.1, w) ∈ population ∧ kv.2 = pyStripChars PUNCTUATION w := by
  have hpop' : ¬population.isEmpty = true := by simpa using hpop
  rw [selectRandomBlanks_eq_map population numBlanks tape hpop' hn hnd]
  set k := if population.length < numBlanks then population.length else numBlanks
    with hk
  set sampled := pySample population k tape with hsampled
  have hsub := pySample_subperm population k tape
  have hsampnd : (sampled.map Prod.fst).Nodup := by
    obtain ⟨l', hp, hs⟩ := subperm_map Prod.fst hsub
    exact hp.nodup (hs.nodup hnd)
  have hsortperm := sortByKey_perm sampled
  have hsortnd : ((sortByKey sampled).map Prod.fst).Nodup :=
    (hsortperm.map Prod.fst).symm.nodup hsampnd
  refine ⟨?_, ?_, ?_⟩
  · rw [List.length_map, hsortperm.length_eq, pySample_length]
    have hlen : 0 < population.length := List.length_pos.mpr hpop
    rw [hk]
    split_ifs with hc <;> omega
  · have hle := sortByKey_sorted sampled
    have hne : List.Pairwise (fun a b : Nat × String => a.1 ≠ b.1)
        (sortByKey sampled) := by
      have h : List.Pairwise (fun a b : Nat => a ≠ b)
          ((sortByKey sampled).map Prod.fst) := hsortnd
      exact List.pairwise_map.mp h
    have hlt : List.Pairwise (fun a b : Nat × String => a.1 < b.1)
        (sortByKey sampled) :=
      (hle.and hne).imp (fun hab => Nat.lt_of_le_of_ne hab.1 hab.2)
    rw [List.pairwise_map]
    exact hlt.imp (fun hab => hab)
  · intro kv hkv
    obtain ⟨kv', hkv', rfl⟩ := List.mem_map.mp hkv
    exact ⟨kv'.2, hsub.subset (hsortperm.subset hkv'), rfl⟩

/-! ## Aggregate lemmas about `_select_blanks` -/

theorem selectNonAdjacentBlanks_nonadj (population : List (Nat × String))
    (numBlanks : Nat) (tape : List Nat) :
    ∀ k1 ∈ dictKeys (selectNonAdjacentBlanks population numBlanks tape),
    ∀ k2 ∈ dictKeys (selectNonAdjacentBlanks population numBlanks tape),
      k1 + 1 ≠ k2 := by
  unfold selectNonAdjacentBlanks
  split_ifs with h1 h2
  · simp [dictKeys]
  · simp [dictKeys]
  · exact selectNonAdjacentGo_nonadj _ _ _ _ (by simp [dictKeys])
      (by simp [dictKeys])

theorem pairwise_lt_keys_nodup (d : List (Nat × String))
    (h : List.Pairwise (fun a b : Nat × String => a.1 < b.1) d) :
    (dictKeys d).Nodup := by
  have hmap : List.Pairwise (fun a b : Nat => a < b) (d.map Prod.fst) :=
    List.pairwise_map.mpr (h.imp (fun hab => hab))
  exact hmap.imp (fun hab => Nat.ne_of_lt hab)

theorem selectBlanks_keys_nodup (words : List String) (a b : Nat) (t : Tape) :
    (dictKeys (selectBlanks words a b t)).Nodup := by
  simp only [selectBlanks]
  set p : Nat × Nat := if b < a then (b, a) else (a, b) with hp
  split_ifs with h1 h2 h3 h4
  · simp [dictKeys]
  · simp [dictKeys]
  · simp [dictKeys]
  · have hpop : getBlankSelectionPopulation words ≠ [] := by
      intro hcontra
      simp [hcontra] at h2
    exact pairwise_lt_keys_nodup _
      (selectRandomBlanks_spec _ _ _ hpop h3 (population_keys_nodup words)).2.1
  · exact selectNonAdjacentBlanks_keys_nodup _ _ _

theorem selectBlanks_mem (words : List String) (a b : Nat) (t : Tape)
    (kv : Nat × String) (h : kv ∈ selectBlanks words a b t) :
    ∃ w, (kv.1, w) ∈ getBlankSelectionPopulation words
      ∧ kv.2 = pyStripChars PUNCTUATION w := by
  simp only [selectBlanks] at h
  set p : Nat × Nat := if b < a then (b, a) else (a, b) with hp
  split_ifs at h with h1 h2 h3 h4
  · cases h
  · cases h
  · cases h
  · have hpop : getBlankSelectionPopulation words ≠ [] := by
      intro hcontra
      simp [hcontra] at h2
    exact (selectRandomBlanks_spec _ _ _ hpop h3
      (population_keys_nodup words)).2.2 kv h
  · exact selectNonAdjacentBlanks_mem _ _ _ kv h

theorem selectBlanks_keys_lt (words : List String) (a b : Nat) (t : Tape)
    (k : Nat) (h : k ∈ dictKeys (selectBlanks words a b t)) : k < words.length := by
  obtain ⟨kv, hkv, rfl⟩ := List.mem_map.mp h
  obtain ⟨w, hw, _⟩ := selectBlanks_mem words a b t kv hkv
  exact population_keys_lt words kv.1 (List.mem_map.mpr ⟨(kv.1, w), hw, rfl⟩)

theorem selectBlanks_length_le (words : List String) (a b : Nat) (t : Tape) :
    (selectBlanks words a b t).length
      ≤ max 1 ((getBlankSelectionPopulation words).length / 2) := by
  simp only [selectBlanks]
  set p : Nat × Nat := if b < a then (b, a) else (a, b) with hp
  split_ifs with h1 h2 h3 h4
  · simp
  · simp
  · simp
  · have hpop : getBlankSelectionPopulation words ≠ [] := by
      intro hcontra
      simp [hcontra] at h2
    have hlen := (selectRandomBlanks_spec (getBlankSelectionPopulation words)
      (determineNumBlanks (getBlankSelectionPopulation words).length
        p.1 p.2 t.draw)
      t.sampleTape hpop h3 (population_keys_nodup words)).1
    rw [hlen]
    have hd := determineNumBlanks_le
      (getBlankSelectionPopulation words).length p.1 p.2 t.draw
    omega
  · have hbd := selectNonAdjacentBlanks_length_le
      (getBlankSelectionPopulation words)
      (determineNumBlanks (getBlankSelectionPopulation words).length
        p.1 p.2 t.draw)
      t.choiceTape
    have hd := determineNumBlanks_le
      (getBlankSelectionPopulation words).length p.1 p.2 t.draw
    omega

/-! ## Claims about blank selection (C4, C5) -/

/-- C4: whenever the non-adjacent strategy returns at least `count` entries
(so `_select_blanks` keeps its result without invoking the fallback), no two
keys of the resulting blanks map differ by exactly 1.  (The underlying lemma
holds for every outcome of the strategy, so the hypothesis is benign.) -/
theorem C4_nonadjacent_no_adjacent_keys (population : List (Nat × String))
    (count : Nat) (tape : List Nat)
    (h : count ≤ (selectNonAdjacentBlanks population count tape).length) :
    ∀ k1 ∈ dictKeys (selectNonAdjacentBlanks population count tape),
    ∀ k2 ∈ dictKeys (selectNonAdjacentBlanks population count tape),
      k1 + 1 ≠ k2 ∧ k2 + 1 ≠ k1 := by
  intro k1 hk1 k2 hk2
  exact ⟨selectNonAdjacentBlanks_nonadj population count tape k1 hk1 k2 hk2,
    selectNonAdjacentBlanks_nonadj population count tape k2 hk2 k1 hk1⟩

/-- C4, witness: pool `{0: "a", 2: "b"}`, count 2, a tape on which the
strategy returns both items; keys 0 and 2 are not adjacent. -/
theorem C4_witness : 0 + 1 ≠ 2 ∧ 2 + 1 ≠ 0 :=
  C4_nonadjacent_no_adjacent_keys [(0, "a"), (2, "b")] 2 [0, 0] (by decide)
    0 (by decide) 2 (by decide)

/-- C5, counterexample: pool `{0: "cat"}` and requested count 2.  The
non-adjacent strategy yields 1 < 2 entries, triggering the fallback, but
`_select_random_blanks` caps the sample at the population size and returns a
single entry, not "exactly count = 2 distinct entries". -/
theorem C5_counterexample :
    (selectNonAdjacentBlanks [(0, "cat")] 2 [0]).length < 2 ∧
    (selectRandomBlanks [(0, "cat")] 2 [0]).length = 1 ∧
    (selectRandomBlanks [(0, "cat")] 2 [0]).length ≠ 2 := by decide

/-- C5 (amended): on a non-empty eligible pool (the classifier's output for
some token list), when the non-adjacent strategy yields fewer than `count`
entries, its partial result is discarded and `_select_random_blanks` draws
from the full original pool, returning exactly `min count |pool|` entries
(the code caps the sample size at the pool size) with pairwise strictly
increasing positions, each value being the pool token stripped of the
punctuation set at both ends. -/
theorem C5_random_fallback (words : List String) (count : Nat)
    (tNA tR : List Nat) (hpop : getBlankSelectionPopulation words ≠ [])
    (hc : 1 ≤ count)
    (hshort : (selectNonAdjacentBlanks (getBlankSelectionPopulation words)
      count tNA).length < count) :
    (selectRandomBlanks (getBlankSelectionPopulation words) count tR).length
        = min count (getBlankSelectionPopulation words).length ∧
    List.Pairwise (fun a b : Nat × String => a.1 < b.1)
      (selectRandomBlanks (getBlankSelectionPopulation words) count tR) ∧
    ∀ kv ∈ selectRandomBlanks (getBlankSelectionPopulation words) count tR,
      ∃ w, (kv.1, w) ∈ getBlankSelectionPopulation words
        ∧ kv.2 = pyStripChars PUNCTUATION w :=
  selectRandomBlanks_spec (getBlankSelectionPopulation words) count tR hpop
    (by omega) (population_keys_nodup words)

/-- C5, witness: the fallback on the two-word pool of `"aa. bb"` with
count 2 (the non-adjacent strategy removes both neighbours after its first
pick and comes up short). -/
theorem C5_witness :
    (selectRandomBlanks (getBlankSelectionPopulation ["aa.", "bb"]) 2 [0]).length
      = min 2 (getBlankSelectionPopulation ["aa.", "bb"]).length :=
  (C5_random_fallback ["aa.", "bb"] 2 [0] [0] (by decide) (by decide)
    (by decide)).1

/-! ## Strip-end lemmas -/

theorem dropWhile_head?_not {α : Type} (p : α → Bool) (l : List α) (c : α)
    (h : (l.dropWhile p).head? = some c) : p c = false := by
  induction l with
  | nil => simp at h
  | cons a rest ih =>
    by_cases hp : p a
    · rw [List.dropWhile_cons, if_pos hp] at h
      exact ih h
    · rw [List.dropWhile_cons, if_neg hp] at h
      simp only [List.head?_cons, Option.some.injEq] at h
      subst h
      exact Bool.not_eq_true _ |>.mp hp

theorem stripP_getLast? (p : Char → Bool) (l : List Char) (c : Char)
    (h : (stripP p l).getLast? = some c) : p c = false := by
  rw [stripP, List.getLast?_reverse] at h
  exact dropWhile_head?_not p _ c h

theorem stripP_head? (p : Char → Bool) (l : List Char) (c : Char)
    (h : (stripP p l).head? = some c) : p c = false := by
  rw [stripP, List.head?_reverse] at h
  have hne : (l.dropWhile p).reverse.dropWhile p ≠ [] := by
    intro hc
    rw [hc] at h
    cases h
  have hY : ((l.dropWhile p).reverse.dropWhile p).getLast?
      = ((l.dropWhile p).reverse).getLast? := by
    conv_rhs => rw [← List.takeWhile_append_dropWhile (p := p)
      (l := (l.dropWhile p).reverse)]
    rw [List.getLast?_append_of_ne_nil _ hne]
  rw [hY, List.getLast?_reverse] at h
  exact dropWhile_head?_not p l c h

/-! ## Claims about exercise generation (C2, C8, C9) -/

/-- C2: for every text whose whitespace-split tokens contain at least one
eligible word and all naturals `min_blanks`, `max_blanks`, the blanks map of
the generated exercise has between 1 and `max(1, eligibleCount // 2)` entries;
and `_determine_num_blanks(1, 3, 5)` returns exactly 1 for every draw. -/
theorem C2_blank_count_bounds (text : String) (minB maxB : Nat) (t : Tape)
    (h : 1 ≤ (getBlankSelectionPopulation (pySplitWs text)).length) :
    (1 ≤ (generateExerciseData text minB maxB t).2.1.length ∧
     (generateExerciseData text minB maxB t).2.1.length
       ≤ max 1 ((getBlankSelectionPopulation (pySplitWs text)).length / 2)) ∧
    ∀ draw, determineNumBlanks 1 3 5 draw = 1 := by
  refine ⟨?_, determineNumBlanks_one⟩
  simp only [generateExerciseData]
  split_ifs with h1 h2 h3 h4 h5
  · exact ⟨Nat.le_refl 1, Nat.le_max_left 1 _⟩
  · exact ⟨Nat.le_refl 1, Nat.le_max_left 1 _⟩
  · exact ⟨Nat.le_refl 1, Nat.le_max_left 1 _⟩
  · exact ⟨Nat.le_refl 1, Nat.le_max_left 1 _⟩
  · exact ⟨Nat.le_refl 1, Nat.le_max_left 1 _⟩
  · constructor
    · have hne : selectBlanks (pySplitWs text) minB maxB t ≠ [] := by
        intro hc
        simp [hc] at h3
      exact List.length_pos.mpr hne
    · exact selectBlanks_length_le (pySplitWs text) minB maxB t

/-- C2, witness: the three-token text `"aa bb cc"` (three eligible words)
yields a blanks map of size within `[1, max(1, 3 // 2)] = [1, 1]`. -/
theorem C2_witness :
    1 ≤ (generateExerciseData "aa bb cc" 1 2 ⟨0, [0, 0], [0], [0, 0]⟩).2.1.length ∧
    (generateExerciseData "aa bb cc" 1 2 ⟨0, [0, 0], [0], [0, 0]⟩).2.1.length
      ≤ max 1 ((getBlankSelectionPopulation (pySplitWs "aa bb cc")).length / 2) :=
  (C2_blank_count_bounds "aa bb cc" 1 2 ⟨0, [0, 0], [0], [0, 0]⟩ (by decide)).1

/-- C8: every value of the blanks map of a generated exercise neither starts
nor ends with a character from the punctuation set `.!,?;:'"()[]{}<>`. -/
theorem C8_blank_values_punct_free (text : String) (minB maxB : Nat) (t : Tape) :
    ∀ kv ∈ (generateExerciseData text minB maxB t).2.1,
      (∀ c, kv.2.data.head? = some c → PUNCTUATION.contains c = false) ∧
      (∀ c, kv.2.data.getLast? = some c → PUNCTUATION.contains c = false) := by
  have hfall : ∀ kv : Nat × String, kv ∈ fallbackExerciseData.2.1 →
      (∀ c, kv.2.data.head? = some c → PUNCTUATION.contains c = false) ∧
      (∀ c, kv.2.data.getLast? = some c → PUNCTUATION.contains c = false) := by
    intro kv hkv
    rcases List.mem_singleton.mp hkv with rfl
    constructor
    · intro c hc
      rw [show ("fallback" : String).data.head? = some 'f' from rfl] at hc
      injection hc with hc
      subst hc
      decide
    · intro c hc
      rw [show ("fallback" : String).data.getLast? = some 'k' from rfl] at hc
      injection hc with hc
      subst hc
      decide
  intro kv hkv
  by_cases hsel : kv ∈ selectBlanks (pySplitWs text) minB maxB t
  · obtain ⟨w, _, hval⟩ := selectBlanks_mem (pySplitWs text) minB maxB t kv hsel
    have hdata : kv.2.data
        = stripP (fun c => PUNCTUATION.contains c) w.data := by
      rw [hval]
      rfl
    rw [hdata]
    exact ⟨fun c hc => stripP_head? _ _ c hc,
      fun c hc => stripP_getLast? _ _ c hc⟩
  · -- on every fallback branch the blanks map is {4: "fallback"}
    apply hfall kv
    simp only [generateExerciseData] at hkv
    split_ifs at hkv
    all_goals first
      | exact hkv
      | exact absurd hkv hsel

/-- C8, witness: the fallback exercise for the empty text has the single
value `"fallback"`, whose first character is not a punctuation character. -/
theorem C8_witness : PUNCTUATION.contains 'f' = false :=
  (C8_blank_values_punct_free "" 0 0 ⟨0, [], [], []⟩ (4, "fallback")
    (by decide)).1 'f' (by decide)

/-- C9: for the empty text (and any whitespace-only text),
`generate_exercise_data` does not fail and returns exactly the documented
fallback triple. -/
theorem C9_empty_text_fallback (text : String) (minB maxB : Nat) (t : Tape)
    (h : pyStripWs text = "") :
    generateExerciseData text minB maxB t
      = (["This", "is", "a", "fallback", "text.", "BLANK_4"], [(4, "fallback")],
         ["fallback"]) := by
  have hdata : (pyStripWs text).data.isEmpty = true := by
    rw [h]
    rfl
  simp [generateExerciseData, hdata, fallbackExerciseData]

/-- C9, witness: the empty text and a whitespace-only text both produce the
fallback triple. -/
theorem C9_witness :
    generateExerciseData " \t " 3 5 ⟨0, [], [], []⟩
      = (["This", "is", "a", "fallback", "text.", "BLANK_4"], [(4, "fallback")],
         ["fallback"]) :=
  C9_empty_text_fallback " \t " 3 5 ⟨0, [], [], []⟩ (by decide)

/-! ## Decimal rendering and placeholder round-trip -/

theorem char_ofNat_digit_toNat (m : Nat) (h : m < 10) :
    (Char.ofNat (48 + m)).toNat = 48 + m := by
  interval_cases m <;> decide

theorem natToDigitsAux_digits (fuel n : Nat) :
    ∀ c ∈ natToDigitsAux fuel n, isDigitChar c = true := by
  induction fuel generalizing n with
  | zero => simp [natToDigitsAux]
  | succ fuel ih =>
    intro c hc
    rw [natToDigitsAux] at hc
    by_cases h10 : n < 10
    · rw [if_pos h10] at hc
      rcases List.mem_singleton.mp hc with rfl
      have ht := char_ofNat_digit_toNat n h10
      simp [isDigitChar, ht]
      omega
    · rw [if_neg h10] at hc
      rcases List.mem_append.mp hc with hc | hc
      · exact ih _ c hc
      · rcases List.mem_singleton.mp hc with rfl
        have hm : n % 10 < 10 := Nat.mod_lt _ (by omega)
        have ht := char_ofNat_digit_toNat (n % 10) hm
        simp [isDigitChar, ht]
        omega

theorem natToDigitsAux_ne_nil (fuel n : Nat) : natToDigitsAux (fuel + 1) n ≠ [] := by
  rw [natToDigitsAux]
  by_cases h10 : n < 10
  · simp [h10]
  · simp [h10]

theorem digitsVal_append_singleton (l : List Char) (c : Char) :
    digitsVal (l ++ [c]) = digitsVal l * 10 + (c.toNat - 48) := by
  unfold digitsVal
  rw [List.foldl_append]
  rfl

theorem digitsVal_natToDigitsAux (fuel n : Nat) (h : n < 10 ^ fuel) :
    digitsVal (natToDigitsAux fuel n) = n := by
  induction fuel generalizing n with
  | zero =>
    simp only [pow_zero, Nat.lt_one_iff] at h
    subst h
    rfl
  | succ fuel ih =>
    rw [natToDigitsAux]
    by_cases h10 : n < 10
    · rw [if_pos h10]
      have ht := char_ofNat_digit_toNat n h10
      simp [digitsVal, ht]
    · rw [if_neg h10, digitsVal_append_singleton]
      have hdiv : n / 10 < 10 ^ fuel := by
        rw [pow_succ] at h
        omega
      rw [ih _ hdiv]
      have hm : n % 10 < 10 := Nat.mod_lt _ (by omega)
      have ht := char_ofNat_digit_toNat (n % 10) hm
      rw [ht]
      omega

theorem isDigitChar_bounds (c : Char) (h : isDigitChar c = true) :
    48 ≤ c.toNat ∧ c.toNat ≤ 57 := by
  simp only [isDigitChar, Bool.and_eq_true, decide_eq_true_eq] at h
  exact h

theorem isDigitChar_not_space (c : Char) (h : isDigitChar c = true) :
    pyIsSpace c = false := by
  by_contra hsp
  rw [Bool.not_eq_false] at hsp
  simp only [pyIsSpace, Bool.or_eq_true, beq_iff_eq] at hsp
  rcases hsp with (((((rfl | rfl) | rfl) | rfl) | rfl) | rfl) <;>
    exact absurd h (by decide)

theorem isDigitChar_ne (c : Char) (h : isDigitChar c = true) (d : Char)
    (hd : isDigitChar d = false) : c ≠ d := by
  rintro rfl
  rw [h] at hd
  cases hd

theorem stripP_eq_self (p : Char → Bool) (l : List Char)
    (h : ∀ c ∈ l, p c = false) : stripP p l = l := by
  have hdw : ∀ m : List Char, (∀ c ∈ m, p c = false) → m.dropWhile p = m := by
    intro m hm
    cases m with
    | nil => rfl
    | cons a rest =>
      rw [List.dropWhile_cons, if_neg (by rw [hm a (List.mem_cons_self _ _)]; simp)]
  rw [stripP, hdw l h,
    hdw l.reverse (fun c hc => h c (List.mem_reverse.mp hc)), List.reverse_reverse]

theorem isPrefixOf_append (p q : List Char) : p.isPrefixOf (p ++ q) = true := by
  induction p with
  | nil => simp [List.isPrefixOf]
  | cons a rest ih => simp [List.isPrefixOf, ih]

theorem splitOnCharAux_no_sep (sep : Char) (l acc : List Char)
    (h : ∀ c ∈ l, c ≠ sep) : splitOnCharAux sep l acc = [acc.reverse ++ l] := by
  induction l generalizing acc with
  | nil => simp [splitOnCharAux]
  | cons c rest ih =>
    rw [splitOnCharAux,
      if_neg (by simp [h c (List.mem_cons_self _ _)]),
      ih _ (fun c' hc' => h c' (List.mem_cons_of_mem _ hc'))]
    simp

theorem splitOnCharAux_sep_split (sep : Char) (p q acc : List Char)
    (hp : ∀ c ∈ p, c ≠ sep) :
    splitOnCharAux sep (p ++ sep :: q) acc
      = (acc.reverse ++ p) :: splitOnCharAux sep q [] := by
  induction p generalizing acc with
  | nil => simp [splitOnCharAux]
  | cons c rest ih =>
    rw [List.cons_append, splitOnCharAux,
      if_neg (by simp [hp c (List.mem_cons_self _ _)]),
      ih _ (fun c' hc' => hp c' (List.mem_cons_of_mem _ hc'))]
    simp

theorem pyIntChars?_digits (l : List Char) (hne : l ≠ [])
    (hdig : ∀ c ∈ l, isDigitChar c = true) :
    pyIntChars? l = some ((digitsVal l : Int)) := by
  cases l with
  | nil => exact absurd rfl hne
  | cons c rest =>
    have hstrip : stripP pyIsSpace (c :: rest) = c :: rest :=
      stripP_eq_self _ _ (fun x hx => isDigitChar_not_space x (hdig x hx))
    have hc := hdig c (List.mem_cons_self _ _)
    have hnd : natDigits? (c :: rest) = some (digitsVal (c :: rest)) := by
      unfold natDigits?
      rw [if_pos]
      simp only [Bool.and_eq_true, List.all_eq_true]
      exact ⟨by simp, fun x hx => hdig x hx⟩
    unfold pyIntChars?
    rw [hstrip]
    dsimp only
    rw [if_neg (isDigitChar_ne c hc '+' (by decide)),
      if_neg (isDigitChar_ne c hc '-' (by decide)), hnd]
    rfl

theorem decodeBlank_marker (i : Nat) :
    decodeBlank (blankMarker i) = some ((i : Int)) := by
  have hdig : ∀ c ∈ natToDigitsAux (i + 1) i, isDigitChar c = true :=
    natToDigitsAux_digits (i + 1) i
  have hdata : (blankMarker i).data = blankPrefix ++ natToDigitsAux (i + 1) i := rfl
  unfold decodeBlank
  rw [hdata, if_pos (isPrefixOf_append _ _)]
  have hsplit : splitOnCharAux '_' (blankPrefix ++ natToDigitsAux (i + 1) i) []
      = ("BLANK".data) :: splitOnCharAux '_' (natToDigitsAux (i + 1) i) [] := by
    have h := splitOnCharAux_sep_split '_' ("BLANK".data)
      (natToDigitsAux (i + 1) i) [] (by decide)
    simpa using h
  rw [hsplit,
    splitOnCharAux_no_sep '_' (natToDigitsAux (i + 1) i) []
      (fun c hc => isDigitChar_ne c (hdig c hc) '_' (by decide))]
  show pyIntChars? (List.reverse [] ++ natToDigitsAux (i + 1) i) = some ((i : Int))
  simp only [List.reverse_nil, List.nil_append]
  rw [pyIntChars?_digits _ (natToDigitsAux_ne_nil i i) hdig]
  have hlt : i < 10 ^ (i + 1) := by
    calc i < 10 ^ i := Nat.lt_pow_self (by omega) i
    _ ≤ 10 ^ (i + 1) := Nat.pow_le_pow_right (by omega) (by omega)
  rw [digitsVal_natToDigitsAux _ _ hlt]

/-! ## Display-assembly lemmas -/

theorem decodeBlank_eq_none_of_head (s : String)
    (h : ∀ c, s.data.head? = some c → c ≠ 'B') : decodeBlank s = none := by
  unfold decodeBlank
  rw [if_neg]
  intro hpre
  cases hdata : s.data with
  | nil =>
    rw [hdata] at hpre
    simp [blankPrefix, List.isPrefixOf] at hpre
  | cons c rest =>
    rw [hdata] at hpre
    have hcB : ('B' == c) = true := by
      have := hpre
      simp only [blankPrefix, List.isPrefixOf, Bool.and_eq_true] at this
      exact this.1
    exact h c (by rw [hdata]; rfl) (beq_iff_eq.mp hcB).symm

theorem decodeBlank_punct_part (w : String)
    (hne : ¬((splitWordAndPunctuation w).2.data.isEmpty = true)) :
    decodeBlank (splitWordAndPunctuation w).2 = none := by
  apply decodeBlank_eq_none_of_head
  intro c hc
  have hmem : c ∈ (splitWordAndPunctuation w).2.data :=
    List.mem_of_mem_head? (by rw [hc]; rfl)
  have hpunct : PUNCTUATION.contains c = true := by
    have h1 : c ∈ (w.data.reverse.takeWhile
        (fun c => PUNCTUATION.contains c)).reverse := hmem
    exact List.mem_takeWhile_imp (List.mem_reverse.mp h1)
  intro hcB
  subst hcB
  exact absurd hpunct (by decide)

theorem length_filterMap_eq_countP {α β : Type} (f : α → Option β)
    (l : List α) :
    (l.filterMap f).length = l.countP (fun a => (f a).isSome) := by
  induction l with
  | nil => rfl
  | cons a rest ih =>
    rw [List.filterMap_cons, List.countP_cons]
    rcases h : f a with _ | b <;> simp [h, ih]

/-- The placeholders decodable from the assembled display parts are exactly
the enumerated positions that hold a blank key, in order. -/
theorem createDisplayParts_filterMap (words : List String)
    (bd : List (Nat × String)) (hwords : ∀ w ∈ words, decodeBlank w = none) :
    (createDisplayParts words bd).filterMap decodeBlank
      = (words.enum.filter (fun iw => dictHasKey bd iw.1)).map
          (fun iw => ((iw.1 : Int))) := by
  unfold createDisplayParts
  have henum : ∀ iw ∈ words.enum, decodeBlank iw.2 = none := by
    intro iw hiw
    have hg := List.mem_enum_iff_getElem?.mp hiw
    exact hwords iw.2 (List.getElem?_mem hg)
  revert henum
  generalize words.enum = l
  intro henum
  induction l with
  | nil => simp
  | cons iw rest ih =>
    rw [List.map_cons, List.flatten_cons, List.filterMap_append, List.filter_cons]
    rw [ih (fun x hx => henum x (List.mem_cons_of_mem _ hx))]
    by_cases hk : dictHasKey bd iw.1
    · rw [if_pos hk]
      by_cases hp : (splitWordAndPunctuation iw.2).2.data.isEmpty = true
      · simp only [hk, if_pos hp, List.map_cons]
        rw [show List.filterMap decodeBlank [blankMarker iw.1]
            = [(iw.1 : Int)] from by
          rw [List.filterMap_cons, decodeBlank_marker]
          rfl]
        rfl
      · simp only [hk, if_neg hp, List.map_cons]
        rw [show List.filterMap decodeBlank
            [blankMarker iw.1, (splitWordAndPunctuation iw.2).2]
            = [(iw.1 : Int)] from by
          rw [List.filterMap_cons, decodeBlank_marker, List.filterMap_cons,
            decodeBlank_punct_part iw.2 hp]
          rfl]
        rfl
    · rw [if_neg hk]
      rw [show List.filterMap decodeBlank [iw.2] = [] from by
        rw [List.filterMap_cons, henum iw (List.mem_cons_self _ _)]
        rfl]
      rw [List.nil_append]
      simp [Bool.of_not_eq_true hk]

theorem mem_filter_enum_hasKey_iff (words : List String)
    (bd : List (Nat × String)) (hlt : ∀ k ∈ dictKeys bd, k < words.length)
    (k : Nat) :
    (k ∈ (words.enum.filter (fun iw => dictHasKey bd iw.1)).map Prod.fst)
      ↔ k ∈ dictKeys bd := by
  constructor
  · intro hk
    obtain ⟨iw, hiw, rfl⟩ := List.mem_map.mp hk
    exact (dictHasKey_iff_mem bd iw.1).mp (List.mem_filter.mp hiw).2
  · intro hk
    have hklt := hlt k hk
    have hmem : (k, words.get ⟨k, hklt⟩) ∈ words.enum := by
      rw [List.mem_enum_iff_getElem?]
      simp [List.getElem?_eq_getElem hklt]
    exact List.mem_map.mpr ⟨(k, words.get ⟨k, hklt⟩),
      List.mem_filter.mpr ⟨hmem, (dictHasKey_iff_mem bd k).mpr hk⟩, rfl⟩

theorem filter_enum_length (words : List String) (bd : List (Nat × String))
    (hnd : (dictKeys bd).Nodup) (hlt : ∀ k ∈ dictKeys bd, k < words.length) :
    (words.enum.filter (fun iw => dictHasKey bd iw.1)).length = bd.length := by
  have hklnd : ((words.enum.filter (fun iw => dictHasKey bd iw.1)).map
      Prod.fst).Nodup := by
    have hsub := (List.filter_sublist
      (p := fun iw : Nat × String => dictHasKey bd iw.1) words.enum).map Prod.fst
    rw [List.enum_map_fst] at hsub
    exact hsub.nodup (List.nodup_range _)
  have hperm : ((words.enum.filter (fun iw => dictHasKey bd iw.1)).map
      Prod.fst).Perm (dictKeys bd) := by
    apply List.perm_of_nodup_nodup_toFinset_eq hklnd hnd
    ext k
    simp only [List.mem_toFinset]
    exact mem_filter_enum_hasKey_iff words bd hlt k
  have hlen := hperm.length_eq
  rw [List.length_map] at hlen
  rw [hlen]
  simp [dictKeys]

/-! ## Claim C3 -/

/-- C3, counterexample: for `words = ["cat", "BLANK_0"]` the unblanked token
`"BLANK_0"` itself decodes as a placeholder, so the display parts contain two
entries parsing as `BLANK_<i>` while the blanks map produced by
`_select_blanks` has a single entry. -/
theorem C3_counterexample :
    (createDisplayParts ["cat", "BLANK_0"]
      (selectBlanks ["cat", "BLANK_0"] 1 1 ⟨0, [0], [], []⟩)).countP
        (fun part => (decodeBlank part).isSome) = 2 ∧
    (selectBlanks ["cat", "BLANK_0"] 1 1 ⟨0, [0], [], []⟩).length = 1 ∧
    (2 : Nat) ≠ 1 := by decide

/-- C3 (amended): provided no original token itself parses as a
`BLANK_<integer>` placeholder (the documented limitation on ordinary tokens),
the display parts built from any blanks map produced by `_select_blanks`
contain exactly `len(blanks)` decodable placeholder entries, and the set of
decoded positions equals exactly the key set of the blanks map. -/
theorem C3_display_placeholders_match_keys (words : List String)
    (minB maxB : Nat) (t : Tape)
    (hwords : ∀ w ∈ words, decodeBlank w = none) :
    (createDisplayParts words (selectBlanks words minB maxB t)).countP
        (fun part => (decodeBlank part).isSome)
      = (selectBlanks words minB maxB t).length ∧
    ∀ p : Int,
      (∃ part ∈ createDisplayParts words (selectBlanks words minB maxB t),
        decodeBlank part = some p)
      ↔ ∃ k ∈ dictKeys (selectBlanks words minB maxB t), (k : Int) = p := by
  set bd := selectBlanks words minB maxB t with hbd
  have hnd := selectBlanks_keys_nodup words minB maxB t
  have hlt : ∀ k ∈ dictKeys bd, k < words.length :=
    fun k hk => selectBlanks_keys_lt words minB maxB t k hk
  have hfm := createDisplayParts_filterMap words bd hwords
  constructor
  · rw [← length_filterMap_eq_countP, hfm, List.length_map]
    exact filter_enum_length words bd hnd hlt
  · intro p
    constructor
    · rintro ⟨part, hpart, hdec⟩
      have hp : p ∈ (createDisplayParts words bd).filterMap decodeBlank :=
        List.mem_filterMap.mpr ⟨part, hpart, hdec⟩
      rw [hfm] at hp
      obtain ⟨iw, hiw, rfl⟩ := List.mem_map.mp hp
      exact ⟨iw.1,
        (mem_filter_enum_hasKey_iff words bd hlt iw.1).mp
          (List.mem_map.mpr ⟨iw, hiw, rfl⟩), rfl⟩
    · rintro ⟨k, hk, rfl⟩
      have hkl := (mem_filter_enum_hasKey_iff words bd hlt k).mpr hk
      obtain ⟨iw, hiw, hfst⟩ := List.mem_map.mp hkl
      have hp : ((iw.1 : Int)) ∈ (createDisplayParts words bd).filterMap
          decodeBlank := by
        rw [hfm]
        exact List.mem_map.mpr ⟨iw, hiw, rfl⟩
      obtain ⟨part, hpart, hdec⟩ := List.mem_filterMap.mp hp
      rw [hfst] at hdec
      exact ⟨part, hpart, hdec⟩

/-- C3, witness: the invariant instantiated on the three-token text
`["aa", "bb", "cc"]` (no token resembles a placeholder). -/
theorem C3_witness :
    (createDisplayParts ["aa", "bb", "cc"]
      (selectBlanks ["aa", "bb", "cc"] 1 1 ⟨0, [1], [], []⟩)).countP
        (fun part => (decodeBlank part).isSome)
      = (selectBlanks ["aa", "bb", "cc"] 1 1 ⟨0, [1], [], []⟩).length :=
  (C3_display_placeholders_match_keys ["aa", "bb", "cc"] 1 1 ⟨0, [1], [], []⟩
    (by decide)).1

/-! ## Claim C7: the classifier against the specified eligibility rule -/

theorem stripP_isEmpty_all (p : Char → Bool) (l : List Char)
    (h : (stripP p l).isEmpty = true) : ∀ c ∈ l, p c = true := by
  rw [List.isEmpty_iff, stripP] at h
  have h2 : (l.dropWhile p).reverse.dropWhile p = [] := by
    rwa [List.reverse_eq_nil_iff] at h
  have h3 := List.dropWhile_eq_nil_iff.mp h2
  intro c hc
  rw [← List.takeWhile_append_dropWhile (p := p) (l := l)] at hc
  rcases List.mem_append.mp hc with hc | hc
  · exact List.mem_takeWhile_imp hc
  · exact h3 c (List.mem_reverse.mpr hc)

theorem pyIsSpace_not_alpha (c : Char) (h : pyIsSpace c = true) :
    pyIsAlphaChar c = false := by
  simp only [pyIsSpace, Bool.or_eq_true, beq_iff_eq] at h
  rcases h with (((((rfl | rfl) | rfl) | rfl) | rfl) | rfl) <;> decide

theorem mem_removeChars (l toRemove : List Char) (c : Char)
    (h : c ∈ removeChars l toRemove) : c ∈ l :=
  (List.mem_filter.mp h).1

theorem mem_stripP (p : Char → Bool) (l : List Char) (c : Char)
    (h : c ∈ stripP p l) : c ∈ l := by
  rw [stripP] at h
  have h1 := List.mem_reverse.mp h
  have h2 := (List.dropWhile_sublist p).subset h1
  exact (List.dropWhile_sublist p).subset (List.mem_reverse.mp h2)

theorem specEligible_false_of_ws (w : String)
    (h : (stripP pyIsSpace w.data).isEmpty = true) : specEligible w = false := by
  have hall := stripP_isEmpty_all pyIsSpace w.data h
  simp only [specEligible]
  cases hr : removeChars (stripP (fun c => PUNCTUATION.contains c) w.data)
      ['-', apostropheChar] with
  | nil => simp [hr]
  | cons c rest =>
    have hcmem : c ∈ removeChars
        (stripP (fun c => PUNCTUATION.contains c) w.data) ['-', apostropheChar] := by
      rw [hr]
      exact List.mem_cons_self _ _
    have hc : c ∈ w.data :=
      mem_stripP _ _ _ (mem_removeChars _ _ _ hcmem)
    have hna := pyIsSpace_not_alpha c (hall c hc)
    simp [hr, List.all_cons, hna]

/-- C7: the word classifier returns exactly the ordered subsequence of
enumerated tokens satisfying the specified eligibility rule (strip the fixed
punctuation set from both ends, remove internal hyphens and apostrophes,
require the remainder non-empty and entirely alphabetic); a token failing the
rule is never in the output. -/
theorem C7_classifier_matches_spec (words : List String) :
    getBlankSelectionPopulation words
      = words.enum.filter (fun iw => specEligible iw.2) ∧
    ∀ iw ∈ getBlankSelectionPopulation words, specEligible iw.2 = true := by
  have hcong : ∀ w : String,
      (!(stripP pyIsSpace w.data).isEmpty && isEligibleToken w)
        = specEligible w := by
    intro w
    by_cases hws : (stripP pyIsSpace w.data).isEmpty = true
    · rw [specEligible_false_of_ws w hws, hws]
      simp
    · rw [Bool.not_eq_true] at hws
      rw [hws]
      show (true && isEligibleToken w) = specEligible w
      rw [Bool.true_and]
      rfl
  have hfilter : getBlankSelectionPopulation words
      = words.enum.filter (fun iw => specEligible iw.2) := by
    unfold getBlankSelectionPopulation
    exact List.filter_congr (fun iw _ => hcong iw.2)
  refine ⟨hfilter, ?_⟩
  intro iw hiw
  rw [hfilter] at hiw
  exact (List.mem_filter.mp hiw).2

/-- C7, witness: the token `"don't"` kept by the classifier on a mixed token
list (which drops the number, the standalone punctuation and the symbol)
satisfies the specified eligibility rule. -/
theorem C7_witness : specEligible "don't" = true :=
  (C7_classifier_matches_spec ["The", "42", "-", "don't", "x+y", "dog."]).2
    (3, "don't") (by decide)

end EnglishTests
